import Mathlib

/-!
Verification of the Edge Validation & Normalization Engine of the
`causal_agent` repository.

The development shallowly embeds the deterministic core of the pipeline:

* `src/template_utils.py` — placeholder detection, the recursive
  template merge, and the fill-rate metric;
* `src/edge_prevalidator.py` — hard checks of reported numbers against
  paper text, deterministic derivation of equation metadata, and scale
  normalization of reported estimates (`precompute_theta`);
* `src/hpp_mapper.py` — the inverted token index, synonym expansion,
  candidate scoring, forced-inclusion rules, and the per-edge context;
* `src/pipeline.py` — the final schema enforcement pass;
* `src/review.py` — the cross-edge consistency check.

JSON values are modelled by the inductive `JValue`; Python dictionaries
become ordered association lists (`List (String × JValue)`), matching
Python's insertion-ordered dict semantics.  Numbers are modelled as
rationals.  Where the Python code calls `math.log` followed by rounding
to four decimals the embedding abstracts that one float-valued map as a
function parameter, since binary floating point is not representable
here; everything else is embedded concretely.
-/

/-- A JSON-like Python value: `None`, booleans, numbers (modelled as
rationals), strings, lists, and insertion-ordered dictionaries. -/
inductive JValue where
  | null
  | bool (b : Bool)
  | num (q : ℚ)
  | str (s : String)
  | arr (items : List JValue)
  | obj (fields : List (String × JValue))
deriving Repr

/-- An ordered association list standing for one Python dict. -/
abbrev JObj := List (String × JValue)

mutual

/-- Structural equality test on `JValue` (Python `==` on JSON trees). -/
def JValue.beq : JValue → JValue → Bool
  | .null, .null => true
  | .bool a, .bool b => a == b
  | .num a, .num b => a == b
  | .str a, .str b => a == b
  | .arr a, .arr b => JValue.beqList a b
  | .obj a, .obj b => JValue.beqObj a b
  | _, _ => false

/-- Elementwise equality of JSON lists. -/
def JValue.beqList : List JValue → List JValue → Bool
  | [], [] => true
  | a :: as_, b :: bs => JValue.beq a b && JValue.beqList as_ bs
  | _, _ => false

/-- Entrywise equality of JSON objects (keys and values, in order). -/
def JValue.beqObj : JObj → JObj → Bool
  | [], [] => true
  | (ka, va) :: as_, (kb, vb) :: bs =>
      ka == kb && JValue.beq va vb && JValue.beqObj as_ bs
  | _, _ => false

end

mutual

theorem JValue.beq_refl : ∀ v : JValue, JValue.beq v v = true
  | .null => rfl
  | .bool b => by simp [JValue.beq]
  | .num q => by simp [JValue.beq]
  | .str s => by simp [JValue.beq]
  | .arr l => by simp [JValue.beq, JValue.beqList_refl l]
  | .obj l => by simp [JValue.beq, JValue.beqObj_refl l]

theorem JValue.beqList_refl : ∀ l : List JValue, JValue.beqList l l = true
  | [] => rfl
  | a :: as_ => by simp [JValue.beqList, JValue.beq_refl a, JValue.beqList_refl as_]

theorem JValue.beqObj_refl : ∀ l : JObj, JValue.beqObj l l = true
  | [] => rfl
  | (k, v) :: as_ => by
      simp [JValue.beqObj, JValue.beq_refl v, JValue.beqObj_refl as_]

end

mutual

theorem JValue.eq_of_beq : ∀ {a b : JValue}, JValue.beq a b = true → a = b
  | .null, .null, _ => rfl
  | .bool _, .bool _, h => by
      simp only [JValue.beq, beq_iff_eq] at h; rw [h]
  | .num _, .num _, h => by
      simp only [JValue.beq, beq_iff_eq] at h; rw [h]
  | .str _, .str _, h => by
      simp only [JValue.beq, beq_iff_eq] at h; rw [h]
  | .arr a, .arr b, h => by
      rw [JValue.eqList_of_beq (a := a) (b := b) h]
  | .obj a, .obj b, h => by
      rw [JValue.eqObj_of_beq (a := a) (b := b) h]

theorem JValue.eqList_of_beq : ∀ {a b : List JValue}, JValue.beqList a b = true → a = b
  | [], [], _ => rfl
  | x :: xs, y :: ys, h => by
      simp only [JValue.beqList, Bool.and_eq_true] at h
      rw [JValue.eq_of_beq h.1, JValue.eqList_of_beq h.2]

theorem JValue.eqObj_of_beq : ∀ {a b : JObj}, JValue.beqObj a b = true → a = b
  | [], [], _ => rfl
  | (kx, vx) :: xs, (ky, vy) :: ys, h => by
      simp only [JValue.beqObj, Bool.and_eq_true, beq_iff_eq] at h
      rw [h.1.1, JValue.eq_of_beq h.1.2, JValue.eqObj_of_beq h.2]

end

instance : DecidableEq JValue := fun a b =>
  if h : JValue.beq a b = true then
    Decidable.isTrue (JValue.eq_of_beq h)
  else
    Decidable.isFalse (fun he => h (he ▸ JValue.beq_refl a))

/-- First value bound to key `k` in an association list (`dict.__getitem__`
on Python dicts, which hold each key once). -/
def findVal (k : String) : JObj → Option JValue
  | [] => none
  | (k1, v) :: rest => if k1 = k then some v else findVal k rest

/-- Key membership (`k in d` on a Python dict). -/
def keyIn (k : String) (l : JObj) : Bool :=
  l.any (fun p => p.1 = k)

/-- Python `d.get(k)`: `None` when the key is absent. -/
def dGet (e : JObj) (k : String) : JValue :=
  (findVal k e).getD .null

/-- Python `d.get(k, default)`. -/
def dGetD (e : JObj) (k : String) (d : JValue) : JValue :=
  (findVal k e).getD d

/-- Python `s.startswith(p)`, computed on character lists so that the
kernel can evaluate it. -/
def strStarts (s p : String) : Bool :=
  p.toList.isPrefixOf s.toList

/-- Occurrence of `needle` as a contiguous sublist of a character list. -/
def listContains (needle : List Char) : List Char → Bool
  | [] => needle.isPrefixOf []
  | c :: rest => needle.isPrefixOf (c :: rest) || listContains needle rest

/-- Substring test (Python `needle in haystack`). -/
def strContains (hay needle : String) : Bool :=
  listContains needle.toList hay.toList

/-- Embeds `template_utils._is_placeholder`: a value is a template
placeholder exactly when it is one of the recognized placeholder
strings (`"..."`, the empty string, known Chinese template-prompt
openings, or a scale-indicator fragment containing `"E1/E2"`).
Non-strings, including `None`, are never placeholders. -/
def is_placeholder : JValue → Bool
  | .str v =>
      v = "..." || v = "" || strStarts v "在此处" || strStarts v "论文" ||
        strStarts v "暴露" || strStarts v "结局" || strStarts v "协变量" ||
        strContains v "E1/E2"
  | _ => false

/-- The keys of `source` that the second phase of
`template_utils._recursive_merge` appends to `target`: keys not
starting with `"_"` and not already present in `target`. -/
def mergeExtras (t s : JObj) : JObj :=
  s.filter (fun p => !strStarts p.1 "_" && !keyIn p.1 t)

mutual

/-- Embeds the per-key update rule of `template_utils._recursive_merge`
(matching on the target value and the source value found under the same
key): dict/dict recurses; a target list is replaced only by a non-empty
source list that is not the single sentinel `["..."]`; otherwise the
source value wins when it is non-null and not a placeholder, an
explicit null wins over a placeholder, and the target value is kept in
every remaining case. -/
def mergeVal : JValue → JValue → JValue
  | .obj t, .obj s => .obj (mergeUpd t s ++ mergeExtras t s)
  | .arr t, .arr s =>
      if s ≠ [] ∧ s ≠ [.str "..."] then .arr s else .arr t
  | .arr t, _ => .arr t
  | tv, sv =>
      if sv ≠ .null ∧ is_placeholder sv = false then sv
      else if sv = .null ∧ is_placeholder tv = true then .null
      else tv

/-- First phase of `template_utils._recursive_merge`: walk the target
entries in order; keys starting with `"_"` and keys absent from the
source are kept unchanged, every other entry is updated by `mergeVal`. -/
def mergeUpd : JObj → JObj → JObj
  | [], _ => []
  | (k, v) :: rest, s =>
      (if strStarts k "_" then (k, v)
       else
         match findVal k s with
         | none => (k, v)
         | some sv => (k, mergeVal v sv)) :: mergeUpd rest s

end

/-- Embeds `template_utils.merge_with_template` (the deep copy is the
identity in a pure setting): update the skeleton's entries from the LLM
output, then append the LLM output's extra keys. -/
def merge_with_template (skeleton llm_output : JObj) : JObj :=
  mergeUpd skeleton llm_output ++ mergeExtras skeleton llm_output

/-- The keys of an object hold no duplicates (always true of a Python
dict, whose keys are unique). -/
def keysNodup : JObj → Bool
  | [] => true
  | (k, _) :: rest => !keyIn k rest && keysNodup rest

mutual

/-- Well-formedness of a value as the image of a Python object: every
nested dictionary has pairwise-distinct keys. -/
def WFb : JValue → Bool
  | .obj l => keysNodup l && WFObj l
  | .arr l => WFArr l
  | _ => true

/-- Well-formedness of every element of a JSON list. -/
def WFArr : List JValue → Bool
  | [] => true
  | v :: rest => WFb v && WFArr rest

/-- Well-formedness of every value of a JSON object. -/
def WFObj : JObj → Bool
  | [] => true
  | (_, v) :: rest => WFb v && WFObj rest

end

mutual

/-- Embeds `template_utils._count_leaves`: returns
`(total_leaves, filled_leaves)`.  A list is one leaf, filled iff
non-empty; a scalar is one leaf, filled iff non-null, non-placeholder
and not the empty string (booleans and numbers always pass that test,
`None` always fails it, and the empty string is itself a placeholder,
so for strings the test reduces to non-placeholderness); a dict
aggregates its non-underscore keys. -/
def count_leaves : JValue → ℕ × ℕ
  | .obj l => countLeavesObj l
  | .arr l => if l = [] then (1, 0) else (1, 1)
  | .null => (1, 0)
  | .bool _ => (1, 1)
  | .num _ => (1, 1)
  | .str s => (1, if is_placeholder (.str s) = false then 1 else 0)

/-- Leaf counting over a dict's entries, skipping keys that start with
`"_"`. -/
def countLeavesObj : JObj → ℕ × ℕ
  | [] => (0, 0)
  | (k, v) :: rest =>
      if strStarts k "_" then countLeavesObj rest
      else
        ((count_leaves v).1 + (countLeavesObj rest).1,
         (count_leaves v).2 + (countLeavesObj rest).2)

end

/-- Embeds `template_utils.compute_fill_rate`: the fraction of leaves
that are filled, with a guard against division by zero. -/
def compute_fill_rate (edge_json : JValue) : ℚ :=
  ((count_leaves edge_json).2 : ℚ) / (max (count_leaves edge_json).1 1 : ℕ)

/-- Value reachable from a JSON object along a path of keys. -/
def getPath : JValue → List String → Option JValue
  | v, [] => some v
  | .obj l, k :: rest =>
      match findVal k l with
      | some v => getPath v rest
      | none => none
  | _, _ :: _ => none

mutual

/-- Every counted leaf of the structure is a template placeholder
(underscore-keyed entries are not counted; lists, booleans, numbers and
`None` are leaves that are never placeholders).  This is the claim-side
reading of an "all-placeholder skeleton". -/
def allPlaceholder : JValue → Bool
  | .obj l => allPlaceholderObj l
  | .arr _ => false
  | .null => false
  | .bool _ => false
  | .num _ => false
  | .str s => is_placeholder (.str s)

/-- Object part of `allPlaceholder`, skipping underscore keys. -/
def allPlaceholderObj : JObj → Bool
  | [] => true
  | (k, v) :: rest => (strStarts k "_" || allPlaceholder v) && allPlaceholderObj rest

end

mutual

/-- Every counted leaf is non-null, non-placeholder and non-empty (the
claim-side reading of a "fully populated skeleton"): scalar leaves are
meaningful values, list leaves are non-empty lists. -/
def allFilled : JValue → Bool
  | .obj l => allFilledObj l
  | .arr l => !l.isEmpty
  | .null => false
  | .bool _ => true
  | .num _ => true
  | .str s => !is_placeholder (.str s)

/-- Object part of `allFilled`, skipping underscore keys. -/
def allFilledObj : JObj → Bool
  | [] => true
  | (k, v) :: rest => (strStarts k "_" || allFilled v) && allFilledObj rest

end

mutual

/-- The structure has at least one counted leaf. -/
def hasLeaf : JValue → Bool
  | .obj l => hasLeafObj l
  | _ => true

/-- Object part of `hasLeaf`. -/
def hasLeafObj : JObj → Bool
  | [] => false
  | (k, v) :: rest => (!strStarts k "_" && hasLeaf v) || hasLeafObj rest

end

/-- Characters treated as whitespace by Python `str.strip()` and
`float()` argument stripping. -/
def isPySpace (c : Char) : Bool :=
  c = ' ' || c = '\t' || c = '\n' || c = '\r' || c = '\x0b' || c = '\x0c'

/-- Python `str.strip()`. -/
def pyStrip (s : String) : String :=
  String.mk (((s.toList.dropWhile isPySpace).reverse.dropWhile isPySpace).reverse)

/-- Python `str.lower()` (ASCII case folding, which covers every string
the code compares against). -/
def lowerStr (s : String) : String :=
  String.mk (s.toList.map Char.toLower)

/-- Python `str()` of a JSON value, as used when edge fields are joined
into searchable text.  String, `None` and boolean renderings are exact;
the numeric and container renderings are deterministic stand-ins (the
code only ever applies `str()` to fields that hold strings or `None`;
claims quantify over the embedded function). -/
def pyStr : JValue → String
  | .str s => s
  | .null => "None"
  | .bool true => "True"
  | .bool false => "False"
  | .num q => toString q.num
  | .arr _ => "<list>"
  | .obj _ => "<dict>"

/-- Decimal value of a digit list (most significant digit first). -/
def digitsVal (l : List Char) : ℕ :=
  l.foldl (fun n c => 10 * n + (c.toNat - 48)) 0

/-- Exponent part of a Python float literal (after `e`/`E`): an
optional sign followed by at least one digit. -/
def parseExp : List Char → Option ℤ
  | '+' :: r =>
      if r ≠ [] ∧ r.all Char.isDigit then some (digitsVal r) else none
  | '-' :: r =>
      if r ≠ [] ∧ r.all Char.isDigit then some (-(digitsVal r : ℤ)) else none
  | r => if r ≠ [] ∧ r.all Char.isDigit then some (digitsVal r) else none

/-- Unsigned decimal literal: digits, optional fraction, optional
exponent; at least one digit overall. -/
def parseUnsigned (l : List Char) : Option ℚ :=
  let intPart := l.takeWhile Char.isDigit
  let r1 := l.drop intPart.length
  match r1 with
  | [] => if intPart.length = 0 then none else some (digitsVal intPart)
  | '.' :: r2 =>
      let fracPart := r2.takeWhile Char.isDigit
      let r3 := r2.drop fracPart.length
      if intPart.length + fracPart.length = 0 then none
      else
        let base : ℚ :=
          (digitsVal intPart : ℚ) + (digitsVal fracPart : ℚ) / (10 ^ fracPart.length)
        match r3 with
        | [] => some base
        | 'e' :: r4 => (parseExp r4).map (fun e => base * 10 ^ e)
        | 'E' :: r4 => (parseExp r4).map (fun e => base * 10 ^ e)
        | _ => none
  | 'e' :: r4 =>
      if intPart.length = 0 then none
      else (parseExp r4).map (fun e => (digitsVal intPart : ℚ) * 10 ^ e)
  | 'E' :: r4 =>
      if intPart.length = 0 then none
      else (parseExp r4).map (fun e => (digitsVal intPart : ℚ) * 10 ^ e)
  | _ => none

/-- Python `float(s)` on a string: strip whitespace, optional sign,
decimal literal (the special spellings `inf`/`nan` have no rational
counterpart and are not modelled; no claim depends on them). -/
def pyFloatStr (s : String) : Option ℚ :=
  let l := ((s.toList.dropWhile isPySpace).reverse.dropWhile isPySpace).reverse
  match l with
  | '+' :: r => parseUnsigned r
  | '-' :: r => (parseUnsigned r).map Neg.neg
  | r => parseUnsigned r

/-- Python `float(val)` on a JSON value: numbers pass through, booleans
coerce to 0/1, numeric strings parse, everything else raises (modelled
as `none`). -/
def pyFloat : JValue → Option ℚ
  | .num q => some q
  | .bool b => some (if b then 1 else 0)
  | .str s => pyFloatStr s
  | _ => none

/-- Association lookup over string-keyed tables (Python dict lookup on
the fixed constant tables). -/
def lookupStr {α : Type} (k : String) : List (String × α) → Option α
  | [] => none
  | (k1, v) :: rest => if k1 = k then some v else lookupStr k rest

/-- The `mu` descriptor `{family, type, scale}`. -/
structure MuDesc where
  family : String
  type : String
  scale : String
deriving Repr, DecidableEq

/-- One derivation issue `{check, severity, message}`. -/
structure DerivationIssue where
  check : String
  severity : String
  message : String
deriving Repr, DecidableEq

/-- Table `EFFECT_SCALE_TO_EQUATION_TYPE` of `edge_prevalidator.py`. -/
def EFFECT_SCALE_TO_EQUATION_TYPE : List (String × String) :=
  [("HR", "E2"), ("OR", "E1"), ("RR", "E1"), ("MD", "E1"), ("beta", "E1"),
   ("BETA", "E1"), ("SMD", "E1"), ("RD", "E1"), ("IRR", "E1")]

/-- Table `EQUATION_TYPE_TO_MODEL` of `edge_prevalidator.py`. -/
def EQUATION_TYPE_TO_MODEL : List (String × String) :=
  [("E1_OR", "logistic"), ("E1_RR", "logistic"), ("E1_beta", "linear"),
   ("E1_BETA", "linear"), ("E1_MD", "linear"), ("E1_SMD", "linear"),
   ("E1_RD", "linear"), ("E1_IRR", "poisson"), ("E2_HR", "Cox"), ("E2_RR", "Cox")]

/-- Table `EFFECT_SCALE_TO_MU` of `edge_prevalidator.py`. -/
def EFFECT_SCALE_TO_MU : List (String × MuDesc) :=
  [("HR", ⟨"ratio", "HR", "log"⟩), ("OR", ⟨"ratio", "OR", "log"⟩),
   ("RR", ⟨"ratio", "RR", "log"⟩), ("MD", ⟨"difference", "MD", "identity"⟩),
   ("beta", ⟨"difference", "BETA", "identity"⟩),
   ("BETA", ⟨"difference", "BETA", "identity"⟩),
   ("SMD", ⟨"difference", "SMD", "identity"⟩),
   ("RD", ⟨"difference", "RD", "identity"⟩),
   ("IRR", ⟨"ratio", "RR", "log"⟩)]

/-- Set `RATIO_SCALES` of `edge_prevalidator.py`. -/
def RATIO_SCALES : List String := ["HR", "OR", "RR", "IRR"]

/-- Keyword set `MEDIATION_KEYWORDS` (forces E4). -/
def MEDIATION_KEYWORDS : List String :=
  ["mediation", "indirect effect", "direct effect", "acme", "ade", "mediator",
   "mediating", "path analysis", "structural equation"]

/-- Keyword set `INTERACTION_KEYWORDS` (forces E6). -/
def INTERACTION_KEYWORDS : List String :=
  ["interaction", "modifier", "factorial", "joint effect", "effect modification",
   "multiplicative", "additive interaction"]

/-- Keyword set `LONGITUDINAL_KEYWORDS` (forces E3). -/
def LONGITUDINAL_KEYWORDS : List String :=
  ["mixed model", "linear mixed", "lmm", "gee", "repeated measure", "longitudinal",
   "random effect", "random intercept", "random slope"]

/-- Table `method_to_eq` of `derive_equation_metadata` (recognized
`statistical_method` hints with their `(equation_type, model)`). -/
def method_to_eq : List (String × (String × String)) :=
  [("cox", ("E2", "Cox")), ("logistic", ("E1", "logistic")),
   ("linear", ("E1", "linear")), ("poisson", ("E1", "poisson")),
   ("lmm", ("E3", "LMM")), ("gee", ("E3", "GEE")), ("t-test", ("E1", "linear")),
   ("ancova", ("E1", "ANCOVA")), ("mr_ivw", ("E1", "IVW")), ("km", ("E2", "KM")),
   ("mediation", ("E4", "mediation"))]

/-- Any of the keywords occurs as a substring of the text. -/
def anyKeywordIn (kws : List String) (text : String) : Bool :=
  kws.any (fun kw => strContains text kw)

/-- The lowercased space-joined text of X, Y, notes and subgroup that
`_detect_special_equation_type` scans for keywords. -/
def edgeSearchable (edge : JObj) : String :=
  lowerStr (String.intercalate " "
    [pyStr (dGetD edge "X" (.str "")), pyStr (dGetD edge "Y" (.str "")),
     pyStr (dGetD edge "notes" (.str "")), pyStr (dGetD edge "subgroup" (.str ""))])

/-- Embeds `edge_prevalidator._detect_special_equation_type`: mediation
keywords force `"E4"`; an X field prefixed `"interaction:"` or
`"interaction "`, or any interaction keyword, forces `"E6"`; then
longitudinal keywords force `"E3"`; first match wins. -/
def _detect_special_equation_type (edge : JObj) (_evidence_type : String) :
    Option String :=
  let searchable := edgeSearchable edge
  if anyKeywordIn MEDIATION_KEYWORDS searchable then some "E4"
  else
    let x_str := lowerStr (pyStr (dGetD edge "X" (.str "")))
    if strStarts x_str "interaction:" || strStarts x_str "interaction " then some "E6"
    else if anyKeywordIn INTERACTION_KEYWORDS searchable then some "E6"
    else if anyKeywordIn LONGITUDINAL_KEYWORDS searchable then some "E3"
    else none

/-- The stripped `effect_scale` string of a raw edge. -/
def edgeEffectScale (edge : JObj) : String :=
  pyStrip (pyStr (dGetD edge "effect_scale" (.str "")))

/-- The stripped `outcome_type` string of a raw edge. -/
def edgeOutcomeType (edge : JObj) : String :=
  pyStrip (pyStr (dGetD edge "outcome_type" (.str "")))

/-- The stripped, lowercased `statistical_method` string of a raw edge. -/
def edgeStatMethod (edge : JObj) : String :=
  lowerStr (pyStrip (pyStr (dGetD edge "statistical_method" (.str ""))))

/-- Step 2 of `derive_equation_metadata`: the equation type, the
(possibly defaulted) working effect scale, and the fallback warning if
nothing applied.  Priority: special keyword result, then recognized
`statistical_method`, then the effect-scale table, then the
outcome-type fallback (which defaults an empty effect scale), then
`"E1"` with a recorded warning. -/
def deriveEqType (special : Option String) (stat_method effect_scale outcome_type : String) :
    String × String × List DerivationIssue :=
  match special with
  | some eq => (eq, effect_scale, [])
  | none =>
    match lookupStr stat_method method_to_eq with
    | some pr => (pr.1, effect_scale, [])
    | none =>
      match lookupStr effect_scale EFFECT_SCALE_TO_EQUATION_TYPE with
      | some eq => (eq, effect_scale, [])
      | none =>
        if outcome_type = "survival" then
          ("E2", if effect_scale = "" then "HR" else effect_scale, [])
        else if outcome_type = "binary" then
          ("E1", if effect_scale = "" then "OR" else effect_scale, [])
        else if outcome_type = "continuous" then
          ("E1", if effect_scale = "" then "beta" else effect_scale, [])
        else
          ("E1", effect_scale,
            [⟨"derive_eq_type_fallback", "warning",
              "Could not derive equation_type from statistical_method=\x27" ++
                stat_method ++ "\x27, effect_scale=\x27" ++ effect_scale ++
                "\x27, outcome_type=\x27" ++ outcome_type ++ "\x27. Defaulting to E1."⟩])

/-- Step 3 of `derive_equation_metadata`: the model name, with its own
fallback warning.  Priority: recognized `statistical_method`, then the
equation-type specific defaults, then the `EQUATION_TYPE_TO_MODEL`
table keyed by `eq_type ++ "_" ++ effect_scale`, then the outcome-type
default, then `"linear"` with a warning. -/
def deriveModel (stat_method eq_type effect_scale outcome_type : String) :
    String × List DerivationIssue :=
  match lookupStr stat_method method_to_eq with
  | some pr => (pr.2, [])
  | none =>
    if eq_type = "E2" then ("Cox", [])
    else if eq_type = "E3" then ("LMM", [])
    else if eq_type = "E4" then ("mediation", [])
    else if eq_type = "E6" then ("interaction_model", [])
    else
      match lookupStr (eq_type ++ "_" ++ effect_scale) EQUATION_TYPE_TO_MODEL with
      | some m => (m, [])
      | none =>
        if outcome_type = "binary" then ("logistic", [])
        else if outcome_type = "continuous" then ("linear", [])
        else
          ("linear",
            [⟨"derive_model_fallback", "warning",
              "Could not derive model for " ++ eq_type ++ "/" ++ effect_scale ++
                ". Defaulting to \x27linear\x27."⟩])

/-- Step 4 of `derive_equation_metadata`: the `mu` descriptor from the
effect-scale table, with the E2 default and the difference/BETA
fallback (which records a warning). -/
def deriveMu (effect_scale eq_type : String) : MuDesc × List DerivationIssue :=
  match lookupStr effect_scale EFFECT_SCALE_TO_MU with
  | some m => (m, [])
  | none =>
    if eq_type = "E2" then (⟨"ratio", "HR", "log"⟩, [])
    else
      (⟨"difference", "BETA", "identity"⟩,
        [⟨"derive_mu_fallback", "warning",
          "Could not derive mu from effect_scale=\x27" ++ effect_scale ++
            "\x27. Defaulting to difference/BETA/identity."⟩])

/-- Python `s.replace(" ", "_")` used on variable names in formulas. -/
def spaceToUnderscore (s : String) : String :=
  String.mk (s.toList.map (fun c => if c = ' ' then '_' else c))

/-- Embeds `edge_prevalidator._build_formula_skeleton`. -/
def _build_formula_skeleton (eq_type model x_name y_name : String)
    (_effect_scale : String) : String :=
  if eq_type = "E2" then
    "lambda(t|do(" ++ x_name ++ "),Z) = lambda_0(t) * exp(beta_" ++ x_name ++
      " * " ++ x_name ++ " + gamma^T * Z)"
  else if eq_type = "E1" ∧ model = "logistic" then
    "logit(P(" ++ y_name ++ "=1)) = alpha + beta * " ++ x_name ++ " + gamma^T * Z"
  else if eq_type = "E1" ∧ model = "linear" then
    "E[" ++ y_name ++ " | do(" ++ x_name ++ "), Z] = alpha + beta * " ++ x_name ++
      " + gamma^T * Z"
  else if eq_type = "E1" ∧ model = "poisson" then
    "log(E[" ++ y_name ++ "]) = alpha + beta * " ++ x_name ++ " + gamma^T * Z"
  else if eq_type = "E3" then
    y_name ++ "_it = (alpha + u_0i) + (beta_0 + u_1i)*t + beta_" ++ x_name ++
      "*" ++ x_name ++ " + gamma^T*Z + epsilon_it"
  else if eq_type = "E4" then
    "M = f_M(" ++ x_name ++ ", Z_M, eps_M); " ++ y_name ++ " = f_Y(" ++ x_name ++
      ", M, Z_Y, eps_Y)"
  else if eq_type = "E6" then
    "eta(" ++ x_name ++ ", X2, Z) = alpha + beta_1*" ++ x_name ++
      " + beta_2*X2 + beta_12*" ++ x_name ++ "*X2 + gamma^T*Z"
  else
    "E[" ++ y_name ++ "] = alpha + beta * " ++ x_name ++ " + gamma^T * Z"

/-- Result of `derive_equation_metadata` / `soft_check_edge`. -/
structure DerivedMeta where
  equation_type : String
  model : String
  mu : MuDesc
  formula_skeleton : String
  id_strategy : String
  issues : List DerivationIssue
deriving Repr, DecidableEq

/-- Embeds `edge_prevalidator.derive_equation_metadata`: deterministic
derivation of equation type, model, mu descriptor, formula skeleton and
identification strategy, collecting fallback issues in order. -/
def derive_equation_metadata (edge : JObj) (evidence_type : String) : DerivedMeta :=
  let effect_scale0 := edgeEffectScale edge
  let outcome_type := edgeOutcomeType edge
  let stat_method := edgeStatMethod edge
  let special := _detect_special_equation_type edge evidence_type
  let step2 := deriveEqType special stat_method effect_scale0 outcome_type
  let eq_type := step2.1
  let effect_scale := step2.2.1
  let step3 := deriveModel stat_method eq_type effect_scale outcome_type
  let step4 := deriveMu effect_scale eq_type
  let id_strategy := if evidence_type = "interventional" then "rct" else "observational"
  let x_name := spaceToUnderscore (pyStr (dGetD edge "X" (.str "X")))
  let y_name := spaceToUnderscore (pyStr (dGetD edge "Y" (.str "Y")))
  { equation_type := eq_type
    model := step3.1
    mu := step4.1
    formula_skeleton := _build_formula_skeleton eq_type step3.1 x_name y_name effect_scale
    id_strategy := id_strategy
    issues := step2.2.2 ++ step3.2 ++ step4.2 }

/-- Embeds `edge_prevalidator.soft_check_edge`: derivation plus the
notes-based consistency nudges (`"cox"` in the notes forces
E2/Cox/ratio-log with an info issue; `"logistic"` in the notes adjusts
the model when the equation type is not E4/E6). -/
def soft_check_edge (edge : JObj) (evidence_type : String) : DerivedMeta :=
  let derived := derive_equation_metadata edge evidence_type
  let notes := lowerStr (pyStr (dGetD edge "notes" (.str "")))
  let d2 :=
    if strContains notes "cox" ∧ derived.equation_type ≠ "E2" then
      { derived with
        equation_type := "E2"
        model := "Cox"
        mu := ⟨"ratio", "HR", "log"⟩
        issues := derived.issues ++
          [⟨"notes_override_to_cox", "info",
            "Edge notes mention \x27Cox\x27, overriding to E2/Cox."⟩] }
    else derived
  if strContains notes "logistic" ∧ d2.equation_type ≠ "E4" ∧ d2.equation_type ≠ "E6" then
    { d2 with model := "logistic" }
  else d2

/-- Result record of `precompute_theta`. -/
structure ThetaResult where
  theta_hat : Option ℚ
  ci : List (Option ℚ)
  reported_value : Option ℚ
  reported_ci : Option (List JValue)
deriving Repr, DecidableEq

/-- Embeds `edge_prevalidator.precompute_theta`.  The parameter `logR`
stands for the float map `x ↦ round(math.log(x), 4)` (natural log
rounded to four decimals), which has no exact rational counterpart; the
structure of the computation — which side is transformed, when a side
is null, and the pass-through for difference scales — is embedded
exactly. -/
def precompute_theta (logR : ℚ → ℚ) (edge : JObj) (mu : MuDesc) : ThetaResult :=
  let estimate := dGet edge "estimate"
  let ci := dGetD edge "ci" (.arr [.null, .null])
  let effect_scale := pyStrip (pyStr (dGetD edge "effect_scale" (.str "")))
  if estimate = .null then ⟨none, [none, none], none, none⟩
  else
    match pyFloat estimate with
    | none => ⟨none, [none, none], none, none⟩
    | some est =>
      let onRatioScale := RATIO_SCALES.contains effect_scale || mu.family = "ratio"
      if onRatioScale then
        let theta := if est > 0 then some (logR est) else none
        match ci with
        | .arr l =>
            if l.length = 2 then
              ⟨theta,
               l.map (fun b =>
                 if b = .null then none
                 else
                   match pyFloat b with
                   | some bq => if bq > 0 then some (logR bq) else none
                   | none => none),
               some est, some l⟩
            else ⟨theta, [none, none], some est, none⟩
        | _ => ⟨theta, [none, none], some est, none⟩
      else
        match ci with
        | .arr l =>
            if l.length = 2 then
              ⟨some est, l.map (fun b => if b = .null then none else pyFloat b),
               none, none⟩
            else ⟨some est, [none, none], none, none⟩
        | _ => ⟨some est, [none, none], none, none⟩

/-- Concrete edge for the C1 witness: a hazard-ratio edge with a
positive reported estimate. -/
def c1Edge : JObj :=
  [("X", .str "BMI"), ("Y", .str "stroke"), ("effect_scale", .str "HR"),
   ("estimate", .num 2), ("ci", .arr [.num 1, .num 3])]

/-- Witness for C3 at a concrete edge: no special keywords, a
recognized `statistical_method` of `"cox"`, hence equation type E2. -/
def c3Edge : JObj :=
  [("X", .str "tea"), ("Y", .str "fever"), ("statistical_method", .str "cox")]

/-- Python `text.replace(" ", "")`. -/
def removeSpace (s : String) : String :=
  String.mk (s.toList.filter (fun c => c ≠ ' '))

/-- Python `text.replace("\n", "")`. -/
def removeNl (s : String) : String :=
  String.mk (s.toList.filter (fun c => c ≠ '\n'))

/-- Embeds `edge_prevalidator._number_appears_in_text`, parameterized
by the set of decimal renderings attempted for a numeric value (the
code formats the float with 1–3 decimals, as an integer when exact and
small, with the leading zero stripped for values in (0,1), and in
general form for values ≥ 1; binary-float formatting has no exact
rational counterpart, so that rendering set is a parameter).  `None`
needs no verification; non-numeric strings such as `"<0.001"` are
compared space-collapsed against the space-collapsed text; other
unparseable values count as found. -/
def _number_appears_in_text (renderings : ℚ → List String) (val : JValue)
    (text : String) : Bool :=
  if val = .null then true
  else
    match pyFloat val with
    | some q =>
        (renderings q).any (fun c => strContains (removeNl (removeSpace text)) c)
    | none =>
        match val with
        | .str s => strContains (removeSpace text) (removeSpace s)
        | _ => true

/-- One entry of the `checks` list of a hard-check result. -/
structure CheckEntry where
  field : String
  value : JValue
  found_in_text : Bool
deriving Repr, DecidableEq

/-- Embedded result of `hard_check_edge`. -/
structure HardCheckResult where
  edge_index : JValue
  checks : List CheckEntry
  passed : Bool
  missing_values : List String
deriving Repr, DecidableEq

/-- Check/missing contribution of one labelled value (skipped when the
value is null). -/
def hardCheckPart (renderings : ℚ → List String) (label : String) (v : JValue)
    (text : String) : List CheckEntry × List String :=
  if v ≠ .null then
    ([⟨label, v, _number_appears_in_text renderings v text⟩],
     if _number_appears_in_text renderings v text then []
     else [label ++ "=" ++ pyStr v])
  else ([], [])

/-- Embeds `edge_prevalidator.hard_check_edge`: checks estimate, both
CI bounds (when the CI is a two-element list) and the p-value against
the paper text; `passed` is dropped to `false` exactly when a non-null
estimate is not found. -/
def hard_check_edge (renderings : ℚ → List String) (edge : JObj)
    (pdf_text : String) : HardCheckResult :=
  let estimate := dGet edge "estimate"
  let ci := dGetD edge "ci" (.arr [.null, .null])
  let p_value := dGet edge "p_value"
  let estPart := hardCheckPart renderings "estimate" estimate pdf_text
  let ciPart :=
    match ci with
    | .arr [b0, b1] =>
        let c0 := hardCheckPart renderings "ci_lower" b0 pdf_text
        let c1 := hardCheckPart renderings "ci_upper" b1 pdf_text
        (c0.1 ++ c1.1, c0.2 ++ c1.2)
    | _ => ([], [])
  let pPart := hardCheckPart renderings "p_value" p_value pdf_text
  { edge_index := dGetD edge "edge_index" (.num 0)
    checks := estPart.1 ++ ciPart.1 ++ pPart.1
    passed :=
      if estimate ≠ .null ∧ _number_appears_in_text renderings estimate pdf_text = false
      then false else true
    missing_values := estPart.2 ++ ciPart.2 ++ pPart.2 }

/-- Concrete edge for the C8 witness (string-typed numbers keep the
rendering map out of the evaluation). -/
def c8Edge : JObj :=
  [("estimate", .str "2.5"), ("ci", .arr [.str "0.5", .null]),
   ("p_value", .str "<0.001")]

/-- Constant rendering set used by the C8 witness. -/
def c8Render : ℚ → List String := fun _ => ["9"]

/-- Allowed keys of one hpp_mapping role object. -/
def ALLOWED_MAPPING_KEYS : List String := ["name", "dataset", "field", "status"]

/-- Allowed top-level keys of hpp_mapping. -/
def ALLOWED_HPP_TOP_KEYS : List String := ["X", "Y", "Z", "M", "X2"]

/-- Allowed keys of literature_estimate. -/
def ALLOWED_LIT_KEYS : List String :=
  ["theta_hat", "ci", "ci_level", "p_value", "n", "design", "grade", "model",
   "adjustment_set"]

/-- Keep only entries whose key is in the allowed list. -/
def filterKeys (allowed : List String) (l : JObj) : JObj :=
  l.filter (fun p => allowed.contains p.1)

/-- Replace the value bound to `k` (first occurrence) in place; the
object is unchanged when `k` is absent. -/
def setKey (k : String) (f : JValue → JValue) : JObj → JObj
  | [] => []
  | (k1, v) :: rest =>
      if k1 = k then (k1, f v) :: rest else (k1, v) :: setKey k f rest

/-- Strip forbidden keys from a role object if it is a dict; leave any
other value alone (`isinstance(mapping, dict)` guard). -/
def cleanRole (v : JValue) : JValue :=
  match v with
  | .obj m => .obj (filterKeys ALLOWED_MAPPING_KEYS m)
  | v => v

/-- Strip forbidden keys from one Z-list item when it is a dict. -/
def cleanZItem (it : JValue) : JValue :=
  match it with
  | .obj m => .obj (filterKeys ALLOWED_MAPPING_KEYS m)
  | x => x

/-- Strip forbidden keys from every dict item of the Z list, when Z is
a list. -/
def cleanZ (v : JValue) : JValue :=
  match v with
  | .arr items => .arr (items.map cleanZItem)
  | v => v

/-- One application of `re.sub(r"^(\d+)[_]", r"\1-", s)`: a leading
digit run followed by an underscore has the underscore replaced by a
hyphen. -/
def fixDatasetId (s : String) : String :=
  let l := s.toList
  let ds := l.takeWhile Char.isDigit
  if ds ≠ [] ∧ (l.drop ds.length).head? = some '_' then
    String.mk (ds ++ '-' :: l.drop (ds.length + 1))
  else s

mutual

/-- Embeds `pipeline._fix_ds`: recursively normalize every string
`"dataset"` value to hyphen form. -/
def fixDs : JValue → JValue
  | .obj m => .obj (fixDsObj m)
  | .arr l => .arr (fixDsArr l)
  | v => v

/-- Object part of `fixDs`: a string under the key `"dataset"` is
normalized, every other value is recursed into. -/
def fixDsObj : JObj → JObj
  | [] => []
  | (k, v) :: rest =>
      (k, if k = "dataset" then
            match v with
            | .str s => .str (fixDatasetId s)
            | v2 => fixDs v2
          else fixDs v) :: fixDsObj rest

/-- List part of `fixDs`. -/
def fixDsArr : List JValue → List JValue
  | [] => []
  | v :: rest => fixDs v :: fixDsArr rest

end

/-- The `mu.core` type normalization of `_final_schema_enforcement`:
a ratio type with log scale gets the `log` name prefix attached. -/
def fixMuCore (core : JObj) : JObj :=
  match dGetD core "type" (.str "") with
  | .str t =>
      if (t = "HR" ∨ t = "OR" ∨ t = "RR") ∧ dGet core "scale" = .str "log" then
        setKey "type" (fun _ => .str ("log" ++ t)) core
      else core
  | _ => core

/-- The hpp_mapping stage of `pipeline._final_schema_enforcement`
(applied after underscore stripping): within a present `hpp_mapping`
dict, clean the X/Y role objects and the Z items, force `M`/`X2` to
exist and to be null unless the equation type requires them, drop
non-standard top-level keys and normalize dataset ids.  A present
non-dict value is left alone (the Python code would raise there), and
an absent key stays absent (the Python code mutates a fresh throw-away
dict in that case). -/
def enforceHmObj (eq_type : JValue) (hm : JObj) : JObj :=
  let hm1 := setKey "X" cleanRole hm
  let hm2 := setKey "Y" cleanRole hm1
  let hm3 := setKey "Z" cleanZ hm2
  let hm4 := if keyIn "M" hm3 then hm3 else hm3 ++ [("M", .null)]
  let hm5 := if keyIn "X2" hm4 then hm4 else hm4 ++ [("X2", .null)]
  let hm6 := if eq_type = .str "E4" then hm5 else setKey "M" (fun _ => .null) hm5
  let hm7 := if eq_type = .str "E6" then hm6 else setKey "X2" (fun _ => .null) hm6
  filterKeys ALLOWED_HPP_TOP_KEYS hm7

/-- The hpp_mapping stage applied to the whole edge: rewrite the value
under `"hpp_mapping"` when it is a dict. -/
def enforceHm (e1 : JObj) : JObj :=
  match findVal "hpp_mapping" e1 with
  | some (.obj hm) =>
      setKey "hpp_mapping"
        (fun _ => .obj (fixDsObj (enforceHmObj (dGetD e1 "equation_type" (.str "")) hm))) e1
  | _ => e1

/-- The literature_estimate stage of `_final_schema_enforcement`: strip
keys outside the allowed set. -/
def enforceLit (e2 : JObj) : JObj :=
  match findVal "literature_estimate" e2 with
  | some (.obj lit) =>
      setKey "literature_estimate"
        (fun _ => .obj (filterKeys ALLOWED_LIT_KEYS lit)) e2
  | _ => e2

/-- The mu.core stage of `_final_schema_enforcement`: normalize
`mu.core.type` to the `log` prefixed name for ratio measures on log
scale. -/
def enforceMu (e3 : JObj) : JObj :=
  match findVal "epsilon" e3 with
  | some (.obj eps) =>
      match findVal "mu" eps with
      | some (.obj mu) =>
          match findVal "core" mu with
          | some (.obj core) =>
              setKey "epsilon" (fun _ =>
                .obj (setKey "mu" (fun _ =>
                  .obj (setKey "core" (fun _ => .obj (fixMuCore core)) mu)) eps)) e3
          | _ => e3
      | _ => e3
  | _ => e3

/-- Embeds `pipeline._final_schema_enforcement`: strip top-level
underscore keys, then apply the hpp_mapping, literature_estimate and
mu.core stages in order. -/
def _final_schema_enforcement (edge : JObj) : JObj :=
  enforceMu (enforceLit (enforceHm (edge.filter (fun p => !strStarts p.1 "_"))))

/-- The per-entry value transform applied by `fixDsObj`. -/
def fixEntryVal (k : String) (v : JValue) : JValue :=
  if k = "dataset" then
    match v with
    | .str s => .str (fixDatasetId s)
    | v2 => fixDs v2
  else fixDs v

/-- Concrete edge for the C5 counterexample. -/
def c5BadEdge : JObj :=
  [("equation_type", .str "E4"),
   ("hpp_mapping", .obj [("M", .obj [("dataset", .str "d"), ("junk", .num 1)])])]

/-- Concrete edge for the C5 witness. -/
def c5GoodEdge : JObj :=
  [("equation_type", .str "E1"),
   ("hpp_mapping", .obj [("X", .obj [("dataset", .str "002_anthropometrics"),
      ("note", .str "x")]), ("Y", .null)]),
   ("_validation", .num 1)]

/-- The hpp_mapping dict of `c5GoodEdge`. -/
def c5GoodHm : JObj :=
  [("X", .obj [("dataset", .str "002_anthropometrics"), ("note", .str "x")]),
   ("Y", .null)]

/-- Python truthiness of a JSON value. -/
def pyTruthy : JValue → Bool
  | .null => false
  | .bool b => b
  | .num q => !(q == 0)
  | .str s => !(s == "")
  | .arr l => !l.isEmpty
  | .obj o => !o.isEmpty

/-- Python `e.get(k, {})` followed by attribute access: the object
under `k`, the empty object when absent (a present non-dict value would
raise in Python; it is modelled as the empty object and never exercised
by the claims). -/
def dGetObj (e : JObj) (k : String) : JObj :=
  match findVal k e with
  | some (.obj o) => o
  | _ => []

/-- Decimal digits of a natural number (fuel-driven so that the kernel
can evaluate it). -/
def natDigitsAux : ℕ → ℕ → List Char
  | 0, _ => []
  | fuel + 1, n =>
      if n < 10 then [Char.ofNat (48 + n)]
      else natDigitsAux fuel (n / 10) ++ [Char.ofNat (48 + n % 10)]

/-- Decimal rendering of a natural number. -/
def natToStr (n : ℕ) : String := String.mk (natDigitsAux (n + 1) n)

/-- First-occurrence deduplication (the iteration order of a Python
`Counter`/`dict` built by insertion). -/
def firstDedup {α : Type} [DecidableEq α] : List α → List α
  | [] => []
  | a :: l =>
      a :: firstDedup (l.filter (fun x => x ≠ a))
termination_by l => l.length
decreasing_by
  exact Nat.lt_succ_of_le (List.length_filter_le _ _)

/-- The duplicate-detection signature of a filled edge: lowercased,
stripped `rho.X`, `rho.Y` and `literature_estimate.subgroup`. -/
def edgeSig (e : JObj) : String × String × String :=
  let rho := dGetObj (dGetObj e "epsilon") "rho"
  (pyStrip (lowerStr (pyStr (dGetD rho "X" (.str "")))),
   pyStrip (lowerStr (pyStr (dGetD rho "Y" (.str "")))),
   pyStrip (lowerStr (pyStr (dGetD (dGetObj e "literature_estimate") "subgroup"
     (.str "")))))

/-- One issue record of `check_cross_edge_consistency`; issues that the
Python code emits without an `edge_indices` field carry `none`. -/
structure ReviewIssue where
  type : String
  severity : String
  message : String
  edge_indices : Option (List ℕ)
deriving Repr, DecidableEq

/-- Indexed signature list of the edges (Python `enumerate`). -/
def sigListFrom (i : ℕ) : List JObj → List (ℕ × (String × String × String))
  | [] => []
  | e :: rest => (i, edgeSig e) :: sigListFrom (i + 1) rest

/-- Signatures of all edges with their indices. -/
def sigList (edges : List JObj) : List (ℕ × (String × String × String)) :=
  sigListFrom 0 edges

/-- The indices of all edges carrying signature `s`. -/
def groupIdx (edges : List JObj) (s : String × String × String) : List ℕ :=
  ((sigList edges).filter (fun p => p.2 = s)).map (fun p => p.1)

/-- Message of a `duplicate_edge` issue. -/
def dupMessage (s : String × String × String) (count : ℕ) : String :=
  "Possible duplicate: X=\x27" ++ s.1 ++ "\x27, Y=\x27" ++ s.2.1 ++
    "\x27 appears " ++ natToStr count ++ " times"

/-- The exact-duplicate section of `check_cross_edge_consistency`: one
warning per distinct signature occurring more than once, listing all
member indices. -/
def duplicateIssues (edges : List JObj) : List ReviewIssue :=
  (firstDedup ((sigList edges).map (fun p => p.2))).filterMap (fun s =>
    if 2 ≤ (groupIdx edges s).length then
      some ⟨"duplicate_edge", "warning",
        dupMessage s (groupIdx edges s).length, some (groupIdx edges s)⟩
    else none)

/-- The paper-title consistency section: more than one distinct truthy
`paper_title` is an error (the set rendering in the message is
approximated by a comma join). -/
def titleIssues (edges : List JObj) : List ReviewIssue :=
  let titles := firstDedup ((edges.map (fun e => dGetD e "paper_title" (.str ""))).filter
    pyTruthy)
  if 2 ≤ titles.length then
    [⟨"metadata_inconsistency", "error",
      "Multiple paper_titles: " ++ String.intercalate ", " (titles.map pyStr), none⟩]
  else []

/-- The model/equation-type consistency section: a model mapped to more
than one distinct equation type is a warning. -/
def modelEqIssues (edges : List JObj) : List ReviewIssue :=
  let pairs := edges.filterMap (fun e =>
    let m := dGetD (dGetObj e "literature_estimate") "model" (.str "")
    let eq := dGetD e "equation_type" (.str "")
    if pyTruthy m ∧ pyTruthy eq then some (m, eq) else none)
  (firstDedup (pairs.map (fun p => p.1))).filterMap (fun m =>
    let eqs := firstDedup ((pairs.filter (fun p => p.1 = m)).map (fun p => p.2))
    if 2 ≤ eqs.length then
      some ⟨"equation_type_inconsistency", "warning",
        "Model \x27" ++ pyStr m ++ "\x27 maps to multiple equation_types: " ++
          String.intercalate ", " (eqs.map pyStr), none⟩
    else none)

/-- The adjustment-set variation section: more than one distinct
adjustment set across more than two edges is an info issue (a frozenset
is modelled as a `Finset`). -/
def adjIssues (edges : List JObj) : List ReviewIssue :=
  let adjSets : List (Finset String) := edges.map (fun e =>
    match dGetD (dGetObj e "literature_estimate") "adjustment_set" (.arr []) with
    | .arr l => (l.map (fun a => lowerStr (pyStr a))).toFinset
    | _ => ∅)
  if 2 ≤ (firstDedup adjSets).length ∧ 2 < edges.length then
    [⟨"adjustment_set_variation", "info",
      natToStr (firstDedup adjSets).length ++ " different adjustment sets across " ++
        natToStr edges.length ++ " edges.", none⟩]
  else []

/-- The theta scale section: for ratio/log edges a numeric `theta_hat`
with absolute value above 3 is an error. -/
def thetaIssues (edges : List JObj) : List ReviewIssue :=
  ((List.range edges.length).zip edges).filterMap (fun p =>
    let e := p.2
    let core := dGetObj (dGetObj (dGetObj e "epsilon") "mu") "core"
    let theta := dGet (dGetObj e "literature_estimate") "theta_hat"
    if dGet core "family" = .str "ratio" ∧ dGet core "scale" = .str "log" then
      match theta with
      | .num q =>
          if 3 < |q| then
            some ⟨"theta_scale_suspect", "error",
              "Edge #" ++ natToStr (p.1 + 1) ++ ": theta_hat=" ++ pyStr (.num q) ++
                " on log scale too large. May have forgotten log transform.",
              some [p.1]⟩
          else none
      | _ => none
    else none)

/-- Embeds `review.check_cross_edge_consistency`: exact duplicates,
paper-title consistency, model/equation-type consistency, adjustment
set variation, and the theta scale check, in that order; an empty edge
list yields no issues. -/
def check_cross_edge_consistency (edges : List JObj) : List ReviewIssue :=
  if edges.isEmpty then []
  else
    duplicateIssues edges ++ titleIssues edges ++ modelEqIssues edges ++
      adjIssues edges ++ thetaIssues edges

/-- First concrete edge for the C6 witness. -/
def c6Edge1 : JObj :=
  [("epsilon", .obj [("rho", .obj [("X", .str "Body Mass Index"),
     ("Y", .str "stroke")])]),
   ("literature_estimate", .obj [("subgroup", .str "overall")])]

/-- Second concrete edge for the C6 witness (same signature after
normalization). -/
def c6Edge2 : JObj :=
  [("epsilon", .obj [("rho", .obj [("X", .str "body mass index "),
     ("Y", .str "Stroke")])]),
   ("literature_estimate", .obj [("subgroup", .str "OVERALL")])]

/-- The separator class of `HPPFieldIndex._tokenize`: underscore,
hyphen, slash, dot, parentheses and whitespace. -/
def isSepChar (c : Char) : Bool :=
  c = '_' || c = '-' || c = '/' || c = '.' || c = '(' || c = ')' || isPySpace c

/-- Maximal runs of non-separator characters (the non-empty pieces of
`re.split` on the separator class; empty pieces are dropped, as the
length filter of the tokenizer would discard them anyway). -/
def splitRunsAux (p : Char → Bool) : List Char → List Char → List (List Char)
  | [], acc => if acc.isEmpty then [] else [acc.reverse]
  | c :: rest, acc =>
      if p c then
        if acc.isEmpty then splitRunsAux p rest []
        else acc.reverse :: splitRunsAux p rest []
      else splitRunsAux p rest (c :: acc)

/-- Runs of non-separator characters of a character list. -/
def splitRuns (p : Char → Bool) (l : List Char) : List (List Char) :=
  splitRunsAux p l []

/-- `re.sub(r"^\d+[-_]", "", text)`: strip one leading digit run
followed by a hyphen or underscore. -/
def stripNumPfx (s : String) : String :=
  let l := s.toList
  let ds := l.takeWhile Char.isDigit
  if ds ≠ [] ∧ ((l.drop ds.length).head? = some '-' ∨
      (l.drop ds.length).head? = some '_') then
    String.mk (l.drop (ds.length + 1))
  else s

/-- Embeds `HPPFieldIndex._tokenize`: strip a numeric prefix, lowercase,
split on the separator class, and keep tokens longer than one
character, as a set. -/
def hppTokenize (text : String) : Finset String :=
  (((splitRuns isSepChar (lowerStr (stripNumPfx text)).toList).map
    String.mk).toFinset).filter (fun tok => 1 < tok.length)

/-- The `SYNONYM_MAP` of `hpp_mapper.py`. -/
def SYNONYM_MAP : List (String × List String) :=
  [("bmi", ["body", "mass", "index", "anthropometrics", "weight", "obesity",
    "overweight"]),
   ("weight", ["bmi", "obesity", "overweight", "body", "anthropometrics", "kg"]),
   ("height", ["stature", "anthropometrics", "cm"]),
   ("waist", ["circumference", "abdominal", "anthropometrics"]),
   ("hip", ["circumference", "anthropometrics"]),
   ("obesity", ["bmi", "overweight", "body", "mass", "weight", "adiposity"]),
   ("smoking", ["tobacco", "smoke", "cigarette", "smoker", "nicotine", "current",
    "status"]),
   ("alcohol", ["drinking", "ethanol", "drink", "beer", "wine", "spirits",
    "frequency"]),
   ("diet", ["dietary", "food", "nutrition", "fruit", "vegetable", "meat", "grain",
    "fish", "intake"]),
   ("exercise", ["physical", "activity", "sport", "fitness", "walking", "vigorous",
    "moderate"]),
   ("physical", ["exercise", "activity", "sport", "fitness"]),
   ("activity", ["exercise", "physical", "sport", "walking", "moderate", "vigorous",
    "days"]),
   ("lifestyle", ["smoking", "alcohol", "diet", "exercise", "physical", "activity",
    "environment"]),
   ("hypertension", ["blood", "pressure", "systolic", "diastolic", "bp"]),
   ("blood", ["pressure", "hypertension", "tests", "serum", "hematology"]),
   ("heart", ["cardiac", "cardiovascular", "ischemic", "coronary", "arrhythmia",
    "failure"]),
   ("cardiac", ["heart", "cardiovascular", "ecg"]),
   ("ischemic", ["coronary", "heart", "angina", "ischemia"]),
   ("arrhythmia", ["atrial", "fibrillation", "rhythm", "ecg", "arrhythmias"]),
   ("stroke", ["cerebrovascular", "ischemic", "hemorrhagic"]),
   ("cerebrovascular", ["stroke", "brain", "vascular"]),
   ("thrombosis", ["embolism", "clot", "dvt", "venous"]),
   ("arteriosclerosis", ["atherosclerosis", "plaque", "vascular", "carotid"]),
   ("diabetes", ["glucose", "insulin", "hba1c", "glycated", "metabolic", "type"]),
   ("glucose", ["diabetes", "blood", "sugar", "glycemic", "cgm"]),
   ("gout", ["uric", "acid", "urate"]),
   ("liver", ["hepatic", "hepato", "fatty", "cirrhosis", "ultrasound"]),
   ("cholesterol", ["ldl", "hdl", "lipid", "lipidomics", "triglyceride"]),
   ("kidney", ["renal", "nephro", "creatinine", "gfr", "failure"]),
   ("renal", ["kidney", "nephro", "failure"]),
   ("asthma", ["respiratory", "bronchial", "wheeze", "lung", "pulmonary"]),
   ("pulmonary", ["lung", "respiratory", "asthma"]),
   ("cancer", ["tumor", "carcinoma", "adenocarcinoma", "malignant", "neoplasm"]),
   ("colorectal", ["colon", "rectum", "bowel"]),
   ("breast", ["mammary"]),
   ("endometrial", ["uterine", "uterus"]),
   ("ovarian", ["ovary"]),
   ("esophageal", ["esophagus", "oesophageal"]),
   ("pancreatic", ["pancreas"]),
   ("osteoarthritis", ["arthritis", "joint", "bone", "musculoskeletal"]),
   ("mood", ["depression", "anxiety", "mental", "psychological", "depressive"]),
   ("depression", ["mood", "depressive", "mental", "psychological"]),
   ("anxiety", ["mood", "anxious", "mental", "psychological"]),
   ("sleep", ["insomnia", "apnea", "circadian", "rest", "duration", "bedtime",
    "nap", "wake", "total"]),
   ("insomnia", ["sleep", "circadian", "wake"]),
   ("infection", ["bacterial", "viral", "pathogen", "sepsis", "infections"]),
   ("age", ["years", "born", "birth"]),
   ("sex", ["gender", "male", "female"]),
   ("ethnicity", ["race", "ethnic", "country", "birth", "origin"]),
   ("deprivation", ["socioeconomic", "townsend", "income", "poverty"]),
   ("socioeconomic", ["deprivation", "townsend", "income", "education"]),
   ("mortality", ["death", "survival", "died", "fatal", "cause"]),
   ("death", ["mortality", "survival", "fatal"]),
   ("incidence", ["onset", "diagnosis", "incident"]),
   ("crp", ["inflammation", "reactive", "protein", "inflammatory"]),
   ("ldl", ["cholesterol", "lipid", "lipoprotein"]),
   ("hdl", ["cholesterol", "lipid", "lipoprotein"]),
   ("hba1c", ["glycated", "hemoglobin", "diabetes", "glucose"]),
   ("medication", ["drug", "treatment", "prescription", "statin", "medications"]),
   ("statin", ["medication", "cholesterol", "lipid"])]

/-- Embeds `HPPFieldIndex._expand_synonyms`: the token set together
with every synonym of any of its members. -/
def expandSynonyms (tokens : Finset String) : Finset String :=
  tokens ∪ tokens.biUnion (fun t => ((lookupStr t SYNONYM_MAP).getD []).toFinset)

/-- The token set a (dataset, field) pair is indexed under: the
tokens of the field name together with those of the dataset id. -/
def pairTokens (dataset_id field_name : String) : Finset String :=
  hppTokenize field_name ∪ hppTokenize dataset_id

/-- One search candidate (`FieldCandidate` of `hpp_mapper.py`). -/
structure FieldCandidate where
  dataset_id : String
  field_name : String
  score : ℚ
  matched_tokens : Finset String
deriving DecidableEq

/-- All candidates hit by the expanded query tokens, with the code's
score `(2·|direct| + |synonym|) / max(|expanded|, 1)`; the dictionary
is an association list `dataset id → field names`
(`tabular_field_name`). -/
def searchCandidates (rawDict : List (String × List String)) (query : String) :
    List FieldCandidate :=
  let qT := hppTokenize query
  let eT := expandSynonyms qT
  rawDict.flatMap (fun pr =>
    pr.2.filterMap (fun f =>
      let matched := eT ∩ pairTokens pr.1 f
      if matched ≠ ∅ then
        some ⟨pr.1, f,
          (2 * ((matched ∩ qT).card : ℚ) + ((matched \ qT).card : ℚ)) /
            ((max eT.card 1 : ℕ) : ℚ),
          matched⟩
      else none))

/-- Stable descending insertion by a rational key (the model of
Python's stable `sort(key = lambda c: -c.score)`). -/
def insertDescBy {α : Type} (key : α → ℚ) (c : α) : List α → List α
  | [] => [c]
  | d :: rest =>
      if key d ≤ key c then c :: d :: rest else d :: insertDescBy key c rest

/-- Stable descending sort by a rational key. -/
def sortDescBy {α : Type} (key : α → ℚ) : List α → List α
  | [] => []
  | c :: rest => insertDescBy key c (sortDescBy key rest)

/-- Embeds `HPPFieldIndex.search`: all candidates, sorted descending by
score, truncated to `top_k`. -/
def search (rawDict : List (String × List String)) (query : String) (top_k : ℕ) :
    List FieldCandidate :=
  (sortDescBy FieldCandidate.score (searchCandidates rawDict query)).take top_k

def c4Dict : List (String × List String) := [("lifestyle", ["smoker"])]

def c4Cand : FieldCandidate :=
  match searchCandidates c4Dict "smoking" with
  | c :: _ => c
  | [] => ⟨"", "", 0, ∅⟩

/-- The `_DISEASE_KEYWORDS` set of `HPPMapper`. -/
def _DISEASE_KEYWORDS : List String :=
  ["diabetes", "hypertension", "cancer", "heart", "failure", "stroke",
   "arrhythmia", "arrhythmias", "asthma", "liver", "kidney", "renal", "gout",
   "osteoarthritis", "arthritis", "sleep", "mood", "depression", "anxiety",
   "infection", "infections", "thrombosis", "embolism", "cerebrovascular",
   "arteriosclerosis", "atherosclerosis", "disease", "disorder", "mortality",
   "death", "incidence", "pulmonary", "colorectal", "breast", "pancreatic",
   "esophageal", "ovarian", "endometrial", "obesity", "copd"]

/-- Embeds `HPPMapper._has_disease_keyword`: split the lowered text on
the separator class and intersect with the disease keyword set (empty
split fragments are dropped; they never match a keyword). -/
def _has_disease_keyword (text : String) : Bool :=
  (splitRuns isSepChar (lowerStr text).toList).any
    (fun tok => _DISEASE_KEYWORDS.contains (String.mk tok))

/-- Shared body of the two disease-outcome force rules: some role that
is `Y` or starts with `Y` has a query with a disease keyword. -/
def yQueryDisease (qs : List (String × String)) : Bool :=
  qs.any (fun rq => (strStarts rq.1 "Y" || rq.1 == "Y") && _has_disease_keyword rq.2)

/-- Shared body of the keyword force rules: some query contains one of
the keywords as a substring after lowering. -/
def anyQueryHasKw (kws : List String) (qs : List (String × String)) : Bool :=
  qs.any (fun rq => kws.any (fun kw => strContains (lowerStr rq.2) kw))

/-- The `_FORCE_INCLUDE_RULES` table of `HPPMapper`, in source dict
order, as an association list from dataset id to its rule over the
extracted role-to-query mapping. -/
def _FORCE_INCLUDE_RULES : List (String × (List (String × String) → Bool)) :=
  [("021-medical_conditions", yQueryDisease),
   ("058-health_and_medical_history", yQueryDisease),
   ("055-lifestyle_and_environment", anyQueryHasKw
     ["lifestyle", "smoking", "alcohol", "diet", "exercise", "physical activity",
      "tobacco", "drinking", "healthy"]),
   ("000-population", fun _ => true),
   ("002-anthropometrics", anyQueryHasKw
     ["bmi", "weight", "obesity", "overweight", "body mass", "anthropo", "height",
      "waist", "hip"]),
   ("009-sleep", anyQueryHasKw
     ["sleep", "insomnia", "apnea", "circadian", "bedtime", "wake", "rest", "nap",
      "duration"]),
   ("016-blood_tests", anyQueryHasKw
     ["cholesterol", "ldl", "hdl", "glucose", "hba1c", "crp", "creatinine",
      "hemoglobin", "blood test", "serum", "triglyceride", "uric acid"]),
   ("007-blood_pressure", anyQueryHasKw
     ["blood pressure", "systolic", "diastolic", "hypertension", "bp"])]

/-- Name of a `Z` list item: a string item is its own name, a dict item
gives its string `name` value. Dict items whose `name` is not a string
are modelled as the empty name, and items that are neither strings nor
dicts raise in the code and are likewise dropped here; no claim
exercises those cases. -/
def zItemName : JValue → String
  | .str s => s
  | .obj o => match findVal "name" o with
      | some (.str s) => s
      | _ => ""
  | _ => ""

/-- The first truthy of `edge.get("C")`, `edge.get("Z")`,
`edge.get("covariates")`; the last (possibly falsy) value otherwise. -/
def zSource (edge : JObj) : JValue :=
  if pyTruthy ((findVal "C" edge).getD JValue.null) then
    (findVal "C" edge).getD JValue.null
  else if pyTruthy ((findVal "Z" edge).getD JValue.null) then
    (findVal "Z" edge).getD JValue.null
  else (findVal "covariates" edge).getD JValue.null

/-- Embeds `HPPMapper._extract_mapping_queries`: truthy `X` and `Y`
values, then up to eight `Z` item names keyed `Z.<name>` (a repeated
name overwrites itself in the Python dict, so it is inserted once
here), a plain string `Z`, and a `subgroup` that is truthy and not one
of the overall-population markers. -/
def _extract_mapping_queries (edge : JObj) : List (String × String) :=
  let qs : List (String × String) :=
    (match findVal "X" edge with
     | some v => if pyTruthy v then [("X", pyStr v)] else []
     | none => []) ++
    (match findVal "Y" edge with
     | some v => if pyTruthy v then [("Y", pyStr v)] else []
     | none => [])
  let qs :=
    match zSource edge with
    | .arr items =>
        (items.take 8).foldl (fun acc item =>
          let name := zItemName item
          if name ≠ "" ∧ ¬ (acc.any (fun p => p.1 == "Z." ++ name)) then
            acc ++ [("Z." ++ name, name)]
          else acc) qs
    | .str s => if s ≠ "" then qs ++ [("Z", s)] else qs
    | _ => qs
  match findVal "subgroup" edge with
  | some v =>
      if pyTruthy v ∧ ¬ (v = JValue.str "总体人群" ∨ v = JValue.str "overall" ∨
          v = JValue.str "") then
        qs ++ [("subgroup", pyStr v)]
      else qs
  | none => qs

/-- Membership of a dataset id in the raw dictionary. -/
def dictHas (rawDict : List (String × List String)) (ds : String) : Bool :=
  rawDict.any (fun p => p.1 == ds)

/-- One step of the relevant-dataset accumulation: a new dataset is
appended with the candidate score, a seen one keeps its position and
takes the maximum score. -/
def updateMax (rel : List (String × ℚ)) (ds : String) (sc : ℚ) :
    List (String × ℚ) :=
  if rel.any (fun p => p.1 == ds) then
    rel.map (fun p => if p.1 == ds then (p.1, max p.2 sc) else p)
  else rel ++ [(ds, sc)]

/-- The token-search part of `get_context_for_edge`: for each role
query, search with `top_k = 15` and fold the first ten candidates into
the relevant-dataset map. -/
def relevantFromQueries (rawDict : List (String × List String))
    (qs : List (String × String)) : List (String × ℚ) :=
  qs.foldl (fun rel rq =>
    ((search rawDict rq.2 15).take 10).foldl
      (fun r c => updateMax r c.dataset_id c.score) rel) []

/-- One force-include step: a dataset present in the dictionary whose
rule fires on the queries is appended with score `1/100` when it is not
already relevant. -/
def forcedStep (rawDict : List (String × List String))
    (qs : List (String × String)) (rel : List (String × ℚ))
    (pr : String × (List (String × String) → Bool)) : List (String × ℚ) :=
  if dictHas rawDict pr.1 && pr.2 qs && !(rel.any (fun p => p.1 == pr.1)) then
    rel ++ [(pr.1, 1/100)]
  else rel

/-- The force-include loop of `get_context_for_edge`. -/
def addForced (rawDict : List (String × List String))
    (qs : List (String × String)) (rel : List (String × ℚ)) :
    List (String × ℚ) :=
  _FORCE_INCLUDE_RULES.foldl (forcedStep rawDict qs) rel

/-- The relevant-dataset map of `get_context_for_edge` after token
search and force-include, in insertion order. -/
def relevantDatasets (rawDict : List (String × List String)) (edge : JObj) :
    List (String × ℚ) :=
  addForced rawDict (_extract_mapping_queries edge)
    (relevantFromQueries rawDict (_extract_mapping_queries edge))

/-- The dataset ids actually rendered in the context output of
`get_context_for_edge`: the relevant datasets sorted descending by
score and truncated to `max_datasets`. -/
def contextDatasets (rawDict : List (String × List String)) (edge : JObj)
    (max_datasets : ℕ) : List String :=
  ((sortDescBy Prod.snd (relevantDatasets rawDict edge)).take max_datasets).map
    Prod.fst

def c9Dict : List (String × List String) :=
  [("055-lifestyle_and_environment", ["smoking"]), ("000-population", ["age"])]

def c9Edge : JObj := [("X", JValue.str "smoking"), ("Y", JValue.str "cancer")]

def c9Score : ℚ :=
  (2 * (((expandSynonyms (hppTokenize "smoking") ∩
      pairTokens "055-lifestyle_and_environment" "smoking") ∩
      hppTokenize "smoking").card : ℚ) +
    (((expandSynonyms (hppTokenize "smoking") ∩
      pairTokens "055-lifestyle_and_environment" "smoking") \
      hppTokenize "smoking").card : ℚ)) /
    ((max (expandSynonyms (hppTokenize "smoking")).card 1 : ℕ) : ℚ)

def c9wDict : List (String × List String) := [("000-population", ["age"])]

def c9wEdge : JObj := [("X", JValue.str "age")]

theorem findVal_eq_none_of_not_keyIn {k : String} {l : JObj}
    (h : keyIn k l = false) : findVal k l = none := by
  induction l with
  | nil => rfl
  | cons p rest ih =>
      simp only [keyIn, List.any_cons, Bool.or_eq_false_iff,
        decide_eq_false_iff_not] at h
      simp only [findVal, if_neg (fun he => h.1 he), ih (by simp [keyIn, h.2])]

theorem keyIn_of_findVal_eq_some {k : String} {l : JObj} {v : JValue}
    (h : findVal k l = some v) : keyIn k l = true := by
  induction l with
  | nil => simp [findVal] at h
  | cons p rest ih =>
      by_cases he : p.1 = k
      · simp [keyIn, he]
      · simp only [findVal, if_neg he] at h
        simp only [keyIn, List.any_cons] at ih ⊢
        rw [ih h, Bool.or_true]

theorem keyIn_of_mem {k : String} {v : JValue} {l : JObj}
    (h : (k, v) ∈ l) : keyIn k l = true := by
  induction l with
  | nil => simp at h
  | cons p rest ih =>
      rcases List.mem_cons.1 h with h1 | h2
      · simp [keyIn, h1.symm]
      · simp only [keyIn, List.any_cons] at ih ⊢
        rw [ih h2, Bool.or_true]

theorem nodup_findVal_self {s : JObj} (hn : keysNodup s = true) :
    ∀ {k : String} {v : JValue}, (k, v) ∈ s → findVal k s = some v := by
  induction s with
  | nil => intro k v h; simp at h
  | cons p rest ih =>
      obtain ⟨k1, v1⟩ := p
      simp only [keysNodup, Bool.and_eq_true, Bool.not_eq_true'] at hn
      intro k v h
      rcases List.mem_cons.1 h with h1 | h2
      · injection h1 with hk hv
        subst hk; subst hv
        simp [findVal]
      · have hk1 : k1 ≠ k := by
          intro he
          rw [he] at hn
          exact absurd (keyIn_of_mem h2) (by simp [hn.1])
        simp [findVal, hk1, ih hn.2 h2]

theorem findVal_mem {k : String} {v : JValue} {l : JObj}
    (h : findVal k l = some v) : (k, v) ∈ l := by
  induction l with
  | nil => simp [findVal] at h
  | cons p rest ih =>
      by_cases he : p.1 = k
      · simp only [findVal, if_pos he] at h
        have hv : p.2 = v := by injection h
        exact List.mem_cons.2 (Or.inl (by rw [← he, ← hv]))
      · simp only [findVal, if_neg he] at h
        exact List.mem_cons_of_mem _ (ih h)

theorem WFObj_mem {l : JObj} (h : WFObj l = true) :
    ∀ {k : String} {v : JValue}, (k, v) ∈ l → WFb v = true := by
  induction l with
  | nil => intro k v hm; simp at hm
  | cons p rest ih =>
      obtain ⟨k1, v1⟩ := p
      rw [WFObj, Bool.and_eq_true] at h
      intro k v hm
      rcases List.mem_cons.1 hm with h1 | h2
      · injection h1 with hk hv
        subst hv; exact h.1
      · exact ih h.2 h2

theorem WFb_obj_nodup {l : JObj} (h : WFb (.obj l) = true) :
    keysNodup l = true := by
  rw [WFb, Bool.and_eq_true] at h; exact h.1

theorem WFb_obj_vals {l : JObj} (h : WFb (.obj l) = true) :
    WFObj l = true := by
  rw [WFb, Bool.and_eq_true] at h; exact h.2

theorem mergeUpd_append (a b s : JObj) :
    mergeUpd (a ++ b) s = mergeUpd a s ++ mergeUpd b s := by
  induction a with
  | nil => rfl
  | cons p rest ih =>
      obtain ⟨k, v⟩ := p
      simp only [List.cons_append, mergeUpd, List.append_eq, ih]

theorem keyIn_mergeUpd (k : String) (t s : JObj) :
    keyIn k (mergeUpd t s) = keyIn k t := by
  induction t with
  | nil => rfl
  | cons p rest ih =>
      obtain ⟨k1, v1⟩ := p
      simp only [mergeUpd, keyIn, List.any_cons] at ih ⊢
      rw [← ih]
      congr 1
      split
      · rfl
      · split <;> rfl

theorem findVal_append (k : String) (a b : JObj) :
    findVal k (a ++ b) =
      match findVal k a with
      | some v => some v
      | none => findVal k b := by
  induction a with
  | nil => rfl
  | cons p rest ih =>
      by_cases he : p.1 = k
      · simp [findVal, he]
      · simp only [List.cons_append, findVal, if_neg he, List.append_eq, ih]

theorem mem_mergeExtras {t s : JObj} {p : String × JValue}
    (h : p ∈ mergeExtras t s) :
    p ∈ s ∧ strStarts p.1 "_" = false ∧ keyIn p.1 t = false := by
  rw [mergeExtras] at h
  have hmf := List.mem_filter.1 h
  have h2 := hmf.2
  simp only [Bool.and_eq_true, Bool.not_eq_true'] at h2
  exact ⟨hmf.1, h2.1, h2.2⟩

theorem mergeUpd_self_of : ∀ (l s : JObj),
    (∀ k v, (k, v) ∈ l → strStarts k "_" = false →
      findVal k s = some v ∧ mergeVal v v = v) →
    mergeUpd l s = l
  | [], _, _ => rfl
  | (k, v) :: rest, s, h => by
      have hrest : mergeUpd rest s = rest :=
        mergeUpd_self_of rest s
          (fun k1 v1 hm => h k1 v1 (List.mem_cons_of_mem _ hm))
      by_cases hu : strStarts k "_" = true
      · rw [mergeUpd, if_pos hu, hrest]
      · have hh := h k v (List.mem_cons_self ..) (by simpa using hu)
        rw [mergeUpd, if_neg hu, hrest]
        simp only [hh.1, hh.2]

theorem mergeUpd_idem_of : ∀ (t s : JObj),
    (∀ k sv tv, findVal k s = some sv →
      mergeVal (mergeVal tv sv) sv = mergeVal tv sv) →
    mergeUpd (mergeUpd t s) s = mergeUpd t s
  | [], _, _ => rfl
  | (k, v) :: rest, s, h => by
      have hrest := mergeUpd_idem_of rest s h
      by_cases hu : strStarts k "_" = true
      · rw [mergeUpd, if_pos hu, mergeUpd, if_pos hu, hrest]
      · rcases hf : findVal k s with _ | sv
        · rw [mergeUpd, if_neg hu]
          simp only [hf]
          rw [mergeUpd, if_neg hu, hrest]
          simp only [hf]
        · rw [mergeUpd, if_neg hu]
          simp only [hf]
          rw [mergeUpd, if_neg hu, hrest]
          simp only [hf, h k sv v hf]

mutual

/-- Structural induction for `JValue` presented through list membership,
so that nested lists and objects can be traversed in proofs. -/
theorem JValue.recMem {motive : JValue → Prop}
    (h0 : motive .null) (h1 : ∀ b, motive (.bool b))
    (h2 : ∀ q, motive (.num q)) (h3 : ∀ s, motive (.str s))
    (h4 : ∀ l, (∀ v, v ∈ l → motive v) → motive (.arr l))
    (h5 : ∀ l, (∀ k v, (k, v) ∈ l → motive v) → motive (.obj l)) :
    ∀ v, motive v
  | .null => h0
  | .bool b => h1 b
  | .num q => h2 q
  | .str s => h3 s
  | .arr l => h4 l (JValue.recMemList h0 h1 h2 h3 h4 h5 l)
  | .obj l => h5 l (JValue.recMemObj h0 h1 h2 h3 h4 h5 l)

/-- List part of the membership induction for `JValue`. -/
theorem JValue.recMemList {motive : JValue → Prop}
    (h0 : motive .null) (h1 : ∀ b, motive (.bool b))
    (h2 : ∀ q, motive (.num q)) (h3 : ∀ s, motive (.str s))
    (h4 : ∀ l, (∀ v, v ∈ l → motive v) → motive (.arr l))
    (h5 : ∀ l, (∀ k v, (k, v) ∈ l → motive v) → motive (.obj l)) :
    ∀ l : List JValue, ∀ v, v ∈ l → motive v
  | [] => fun v hv => absurd hv (List.not_mem_nil v)
  | x :: xs => fun v hv =>
      Or.elim (List.mem_cons.1 hv)
        (fun he => he ▸ JValue.recMem h0 h1 h2 h3 h4 h5 x)
        (fun hm => JValue.recMemList h0 h1 h2 h3 h4 h5 xs v hm)

/-- Object part of the membership induction for `JValue`. -/
theorem JValue.recMemObj {motive : JValue → Prop}
    (h0 : motive .null) (h1 : ∀ b, motive (.bool b))
    (h2 : ∀ q, motive (.num q)) (h3 : ∀ s, motive (.str s))
    (h4 : ∀ l, (∀ v, v ∈ l → motive v) → motive (.arr l))
    (h5 : ∀ l, (∀ k v, (k, v) ∈ l → motive v) → motive (.obj l)) :
    ∀ l : JObj, ∀ k v, (k, v) ∈ l → motive v
  | [] => fun k v hv => absurd hv (List.not_mem_nil (k, v))
  | (k1, v1) :: xs => fun k v hv =>
      Or.elim (List.mem_cons.1 hv)
        (fun he => by
          rw [show v = v1 from congrArg Prod.snd he]
          exact JValue.recMem h0 h1 h2 h3 h4 h5 v1)
        (fun hm => JValue.recMemObj h0 h1 h2 h3 h4 h5 xs k v hm)

end

theorem mergeExtras_self (l : JObj) : mergeExtras l l = [] := by
  rw [mergeExtras, List.filter_eq_nil_iff]
  intro p hp
  simp [keyIn_of_mem (Prod.mk.eta ▸ hp : (p.1, p.2) ∈ l)]

theorem keyIn_append (k : String) (a b : JObj) :
    keyIn k (a ++ b) = (keyIn k a || keyIn k b) := by
  simp [keyIn, List.any_append]

theorem mergeVal_self : ∀ v : JValue, WFb v = true → mergeVal v v = v := by
  intro v
  induction v using JValue.recMem with
  | h0 => intro _; rfl
  | h1 b => intro _; rfl
  | h2 q => intro _; rfl
  | h3 s =>
      intro _
      simp only [mergeVal]
      split
      · rfl
      · split
        · rename_i hc
          exact absurd hc.1 (by simp)
        · rfl
  | h4 l _ =>
      intro _
      simp only [mergeVal]
      split <;> rfl
  | h5 l ih =>
      intro hwf
      have hn := WFb_obj_nodup hwf
      have ho := WFb_obj_vals hwf
      simp only [mergeVal]
      rw [mergeExtras_self, List.append_nil,
        mergeUpd_self_of l l
          (fun k v hm _ => ⟨nodup_findVal_self hn hm, ih k v hm (WFObj_mem ho hm)⟩)]

theorem mergeExtras_merged (t s : JObj) :
    mergeExtras (mergeUpd t s ++ mergeExtras t s) s = [] := by
  rw [mergeExtras, List.filter_eq_nil_iff]
  intro p hp
  by_cases hu : strStarts p.1 "_" = true
  · simp [hu]
  · have hkey : keyIn p.1 (mergeUpd t s ++ mergeExtras t s) = true := by
      rw [keyIn_append, keyIn_mergeUpd]
      by_cases ht : keyIn p.1 t = true
      · simp [ht]
      · have hpe : p ∈ mergeExtras t s := by
          rw [mergeExtras]
          exact List.mem_filter.2 ⟨hp, by
            simp [Bool.not_eq_true] at hu ht ⊢
            exact ⟨hu, ht⟩⟩
        have := keyIn_of_mem (Prod.mk.eta ▸ hpe : (p.1, p.2) ∈ mergeExtras t s)
        simp [this]
    simp [hkey]

theorem mergeVal_default (tv sv : JValue) (h1 : ∀ l, tv ≠ JValue.arr l)
    (h2 : ∀ t s, ¬(tv = JValue.obj t ∧ sv = JValue.obj s)) :
    mergeVal tv sv =
      if sv ≠ JValue.null ∧ is_placeholder sv = false then sv
      else if sv = JValue.null ∧ is_placeholder tv = true then JValue.null
      else tv := by
  cases tv with
  | arr l => exact absurd rfl (h1 l)
  | obj t =>
      cases sv with
      | obj s => exact absurd ⟨rfl, rfl⟩ (h2 t s)
      | _ => rfl
  | _ => cases sv <;> rfl

theorem mergeVal_idem : ∀ sv : JValue, WFb sv = true →
    ∀ tv, mergeVal (mergeVal tv sv) sv = mergeVal tv sv := by
  intro sv
  induction sv using JValue.recMem with
  | h0 =>
      intro _ tv
      cases tv with
      | str s =>
          by_cases hp : is_placeholder (.str s) = true <;>
            simp [mergeVal, hp]
      | _ => rfl
  | h1 b => intro _ tv; cases tv <;> rfl
  | h2 q => intro _ tv; cases tv <;> rfl
  | h3 s2 =>
      intro _ tv
      by_cases hp : is_placeholder (.str s2) = true
      · cases tv <;> simp [mergeVal, hp]
      · cases tv <;> simp [mergeVal, hp]
  | h4 l _ =>
      intro _ tv
      have harrne : JValue.arr l ≠ JValue.null ∧ is_placeholder (JValue.arr l) = false := by
        simp [is_placeholder]
      have harr_self : mergeVal (JValue.arr l) (JValue.arr l) = JValue.arr l := by
        simp only [mergeVal]; split <;> rfl
      cases tv with
      | arr t =>
          by_cases hc : l ≠ [] ∧ l ≠ [.str "..."] <;> simp [mergeVal, hc]
      | null =>
          have hd : mergeVal JValue.null (JValue.arr l) = JValue.arr l := by
            rw [mergeVal_default _ _ (by simp) (by simp), if_pos harrne]
          rw [hd, harr_self]
      | bool b =>
          have hd : mergeVal (JValue.bool b) (JValue.arr l) = JValue.arr l := by
            rw [mergeVal_default _ _ (by simp) (by simp), if_pos harrne]
          rw [hd, harr_self]
      | num q =>
          have hd : mergeVal (JValue.num q) (JValue.arr l) = JValue.arr l := by
            rw [mergeVal_default _ _ (by simp) (by simp), if_pos harrne]
          rw [hd, harr_self]
      | str s2 =>
          have hd : mergeVal (JValue.str s2) (JValue.arr l) = JValue.arr l := by
            rw [mergeVal_default _ _ (by simp) (by simp), if_pos harrne]
          rw [hd, harr_self]
      | obj t =>
          have hd : mergeVal (JValue.obj t) (JValue.arr l) = JValue.arr l := by
            rw [mergeVal_default _ _ (by simp) (by simp), if_pos harrne]
          rw [hd, harr_self]
  | h5 s ih =>
      intro hwf tv
      have hvals := WFb_obj_vals hwf
      have hidem : ∀ k sv tv, findVal k s = some sv →
          mergeVal (mergeVal tv sv) sv = mergeVal tv sv :=
        fun k sv tv hf =>
          ih k sv (findVal_mem hf) (WFObj_mem hvals (findVal_mem hf)) tv
      cases tv with
      | obj t =>
          have hU : mergeUpd (mergeUpd t s) s = mergeUpd t s :=
            mergeUpd_idem_of t s hidem
          have hE : mergeUpd (mergeExtras t s) s = mergeExtras t s :=
            mergeUpd_self_of _ s (fun k v hm _ =>
              have hmem := mem_mergeExtras hm
              ⟨nodup_findVal_self (WFb_obj_nodup hwf) hmem.1,
               mergeVal_self v (WFObj_mem hvals hmem.1)⟩)
          simp only [mergeVal]
          rw [mergeUpd_append, hU, hE, mergeExtras_merged, List.append_nil]
      | arr t => rfl
      | null =>
          show mergeVal (.obj s) (.obj s) = mergeVal JValue.null (.obj s)
          rw [mergeVal_self _ hwf]; rfl
      | bool b =>
          show mergeVal (.obj s) (.obj s) = mergeVal (JValue.bool b) (.obj s)
          rw [mergeVal_self _ hwf]; rfl
      | num q =>
          show mergeVal (.obj s) (.obj s) = mergeVal (JValue.num q) (.obj s)
          rw [mergeVal_self _ hwf]; rfl
      | str s2 =>
          show mergeVal (.obj s) (.obj s) = mergeVal (JValue.str s2) (.obj s)
          rw [mergeVal_self _ hwf]; rfl

theorem findVal_mergeUpd_underscore {k : String} (hu : strStarts k "_" = true) :
    ∀ t s : JObj, findVal k (mergeUpd t s) = findVal k t := by
  intro t s
  induction t with
  | nil => rfl
  | cons p rest ih =>
      obtain ⟨k1, v1⟩ := p
      rw [mergeUpd]
      by_cases hs : strStarts k1 "_" = true
      · rw [if_pos hs]
        by_cases he : k1 = k
        · simp [findVal, he]
        · simp [findVal, he, ih]
      · rw [if_neg hs]
        by_cases he : k1 = k
        · exact absurd (he ▸ hu) hs
        · cases hf : findVal k1 s <;> simp [hf, findVal, he, ih]

theorem findVal_mergeExtras_underscore {k : String} (hu : strStarts k "_" = true)
    (t s : JObj) : findVal k (mergeExtras t s) = none := by
  rcases hf : findVal k (mergeExtras t s) with _ | v
  · rfl
  · have hm := mem_mergeExtras (findVal_mem hf)
    rw [hu] at hm
    exact absurd hm.2.1 (by simp)

/-- C2: the template merge is idempotent for every skeleton `S` and
every LLM output dictionary `L` (given that `L` is the image of an
actual Python dict, i.e. its keys are duplicate-free at every level):
merging `L` into the result of merging `L` into `S` yields the same
structure as merging once. -/
theorem C2_merge_idempotent (S L : JObj) (h : WFb (.obj L) = true) :
    merge_with_template (merge_with_template S L) L = merge_with_template S L := by
  have h2 := mergeVal_idem (.obj L) h (.obj S)
  have e1 : mergeVal (.obj S) (.obj L) = .obj (merge_with_template S L) := rfl
  rw [e1] at h2
  have e2 : mergeVal (.obj (merge_with_template S L)) (.obj L)
      = .obj (merge_with_template (merge_with_template S L) L) := rfl
  rw [e2] at h2
  injection h2

/-- Witness for C2 at a concrete skeleton and LLM output. -/
theorem C2_merge_idempotent_witness :
    WFb (.obj [("a", .num 2), ("b", .obj [("c", .str "x")])]) = true ∧
    merge_with_template
        (merge_with_template
          [("a", .str "..."), ("b", .obj [("c", .str "..."), ("d", .null)])]
          [("a", .num 2), ("b", .obj [("c", .str "x")])])
        [("a", .num 2), ("b", .obj [("c", .str "x")])]
      = merge_with_template
          [("a", .str "..."), ("b", .obj [("c", .str "..."), ("d", .null)])]
          [("a", .num 2), ("b", .obj [("c", .str "x")])] :=
  ⟨by decide,
   C2_merge_idempotent
     [("a", .str "..."), ("b", .obj [("c", .str "..."), ("d", .null)])]
     [("a", .num 2), ("b", .obj [("c", .str "x")])] (by decide)⟩

/-- C10 (counterexample): the claim that the recursive merge never
writes or removes underscore-prefixed keys at every nesting level is
false.  With skeleton `{"a": {"_y": 1}}` and LLM output `{"a": 2}` the
merge replaces the whole sub-dict under `"a"`, so the skeleton's
underscore key `"_y"` does not keep its pre-merge value — it is gone
from the merged structure. -/
theorem C10_counterexample :
    getPath (.obj [("a", .obj [("_y", .num 1)])]) ["a", "_y"] = some (.num 1) ∧
    getPath (.obj (merge_with_template [("a", .obj [("_y", .num 1)])] [("a", .num 2)]))
        ["a", "_y"] = none := by
  constructor
  · rfl
  · rfl

/-- C10 (amended): at every dictionary level on which the merge itself
operates — the top level, and recursively every level where both the
skeleton and the LLM output hold dicts under the same key — an
underscore-prefixed key is neither updated, overwritten, nor appended:
its binding in the merged dict is exactly its binding in the skeleton
dict (in particular it is absent whenever the skeleton does not define
it, even if the LLM output does).  Underscore keys buried inside a
subtree that the merge replaces wholesale (because the skeleton value
there was a scalar, list, or placeholder) are not protected; that is
what the counterexample exhibits. -/
theorem C10_underscore_frame (t s : JObj) (k : String)
    (hu : strStarts k "_" = true) :
    findVal k (merge_with_template t s) = findVal k t := by
  rw [merge_with_template, findVal_append, findVal_mergeUpd_underscore hu]
  cases hft : findVal k t with
  | some v => rfl
  | none => exact findVal_mergeExtras_underscore hu t s

/-- Witness for C10's amended frame property at a concrete input: the
skeleton's top-level `"_meta"` key keeps its value and the LLM's
`"_extra"` key is not appended. -/
theorem C10_underscore_frame_witness :
    strStarts "_meta" "_" = true ∧
    findVal "_meta" (merge_with_template [("_meta", .num 7), ("a", .null)]
        [("_meta", .num 9), ("_extra", .num 3), ("a", .num 1)]) = findVal "_meta" [("_meta", .num 7), ("a", .null)] ∧
    strStarts "_extra" "_" = true ∧
    findVal "_extra" (merge_with_template [("_meta", .num 7), ("a", .null)]
        [("_meta", .num 9), ("_extra", .num 3), ("a", .num 1)]) = findVal "_extra" [("_meta", .num 7), ("a", .null)] :=
  ⟨by decide,
   C10_underscore_frame [("_meta", .num 7), ("a", .null)]
     [("_meta", .num 9), ("_extra", .num 3), ("a", .num 1)] "_meta" (by decide),
   by decide,
   C10_underscore_frame [("_meta", .num 7), ("a", .null)]
     [("_meta", .num 9), ("_extra", .num 3), ("a", .num 1)] "_extra" (by decide)⟩

theorem countLeavesObj_le (l : JObj)
    (ih : ∀ k v, (k, v) ∈ l → (count_leaves v).2 ≤ (count_leaves v).1) :
    (countLeavesObj l).2 ≤ (countLeavesObj l).1 := by
  induction l with
  | nil => simp [countLeavesObj]
  | cons p rest ihl =>
      obtain ⟨k, v⟩ := p
      have hrest := ihl (fun k1 v1 hm => ih k1 v1 (List.mem_cons_of_mem _ hm))
      have hv := ih k v (List.mem_cons_self ..)
      rw [countLeavesObj]
      split
      · exact hrest
      · exact Nat.add_le_add hv hrest

theorem count_leaves_le : ∀ v : JValue, (count_leaves v).2 ≤ (count_leaves v).1 := by
  intro v
  induction v using JValue.recMem with
  | h0 => simp [count_leaves]
  | h1 b => simp [count_leaves]
  | h2 q => simp [count_leaves]
  | h3 s => rw [count_leaves]; split <;> simp
  | h4 l _ => rw [count_leaves]; split <;> simp
  | h5 l ih => exact countLeavesObj_le l (fun k v hm => ih k v hm)

theorem allPlaceholderObj_zero (l : JObj)
    (ih : ∀ k v, (k, v) ∈ l → allPlaceholder v = true → (count_leaves v).2 = 0)
    (h : allPlaceholderObj l = true) : (countLeavesObj l).2 = 0 := by
  induction l with
  | nil => rfl
  | cons p rest ihl =>
      obtain ⟨k, v⟩ := p
      simp only [allPlaceholderObj, Bool.and_eq_true, Bool.or_eq_true] at h
      have hrest := ihl (fun k1 v1 hm => ih k1 v1 (List.mem_cons_of_mem _ hm)) h.2
      rw [countLeavesObj]
      split
      · exact hrest
      · rename_i hk
        rcases h.1 with h1 | h2
        · exact absurd h1 (by simpa using hk)
        · rw [ih k v (List.mem_cons_self ..) h2, hrest]

theorem allPlaceholder_filled_zero : ∀ v : JValue,
    allPlaceholder v = true → (count_leaves v).2 = 0 := by
  intro v
  induction v using JValue.recMem with
  | h0 => intro h; exact Bool.noConfusion h
  | h1 b => intro h; exact Bool.noConfusion h
  | h2 q => intro h; exact Bool.noConfusion h
  | h3 s =>
      intro h
      have hp : is_placeholder (JValue.str s) = true := h
      rw [count_leaves]
      simp [hp]
  | h4 l _ => intro h; exact Bool.noConfusion h
  | h5 l ih => intro h; exact allPlaceholderObj_zero l (fun k v hm => ih k v hm) h

theorem allFilledObj_eq (l : JObj)
    (ih : ∀ k v, (k, v) ∈ l → allFilled v = true →
      (count_leaves v).2 = (count_leaves v).1)
    (h : allFilledObj l = true) : (countLeavesObj l).2 = (countLeavesObj l).1 := by
  induction l with
  | nil => rfl
  | cons p rest ihl =>
      obtain ⟨k, v⟩ := p
      simp only [allFilledObj, Bool.and_eq_true, Bool.or_eq_true] at h
      have hrest := ihl (fun k1 v1 hm => ih k1 v1 (List.mem_cons_of_mem _ hm)) h.2
      rw [countLeavesObj]
      split
      · exact hrest
      · rename_i hk
        rcases h.1 with h1 | h2
        · exact absurd h1 (by simpa using hk)
        · rw [ih k v (List.mem_cons_self ..) h2, hrest]

theorem allFilled_filled_eq : ∀ v : JValue,
    allFilled v = true → (count_leaves v).2 = (count_leaves v).1 := by
  intro v
  induction v using JValue.recMem with
  | h0 => intro h; exact Bool.noConfusion h
  | h1 b => intro _; rfl
  | h2 q => intro _; rfl
  | h3 s =>
      intro h
      have hp : is_placeholder (JValue.str s) = false := by
        have h2 : (!is_placeholder (JValue.str s)) = true := h
        simpa using h2
      rw [count_leaves]
      simp [hp]
  | h4 l _ =>
      intro h
      have h2 : (!l.isEmpty) = true := h
      have hne : l ≠ [] := by
        intro he; rw [he] at h2; simp at h2
      rw [count_leaves]
      simp [hne]
  | h5 l ih => intro h; exact allFilledObj_eq l (fun k v hm => ih k v hm) h

theorem hasLeafObj_pos (l : JObj)
    (ih : ∀ k v, (k, v) ∈ l → hasLeaf v = true → 1 ≤ (count_leaves v).1)
    (h : hasLeafObj l = true) : 1 ≤ (countLeavesObj l).1 := by
  induction l with
  | nil => exact Bool.noConfusion h
  | cons p rest ihl =>
      obtain ⟨k, v⟩ := p
      simp only [hasLeafObj, Bool.or_eq_true, Bool.and_eq_true] at h
      rw [countLeavesObj]
      rcases h with h1 | h2
      · have hk : strStarts k "_" = false := by simpa using h1.1
        rw [if_neg (by simp [hk])]
        have := ih k v (List.mem_cons_self ..) h1.2
        omega
      · have hrest := ihl (fun k1 v1 hm => ih k1 v1 (List.mem_cons_of_mem _ hm)) h2
        split
        · exact hrest
        · omega

theorem hasLeaf_total_pos : ∀ v : JValue,
    hasLeaf v = true → 1 ≤ (count_leaves v).1 := by
  intro v
  induction v using JValue.recMem with
  | h0 => intro _; simp [count_leaves]
  | h1 b => intro _; simp [count_leaves]
  | h2 q => intro _; simp [count_leaves]
  | h3 s => intro _; rw [count_leaves]
  | h4 l _ => intro _; rw [count_leaves]; split <;> simp
  | h5 l ih => intro h; exact hasLeafObj_pos l (fun k v hm => ih k v hm) h

/-- C7 (counterexample): as universally stated the claim fails on a
skeleton with no counted leaves.  The empty object vacuously has every
leaf non-null, non-placeholder and non-empty, yet `compute_fill_rate`
returns `0/max(0,1) = 0`, not `1`. -/
theorem C7_counterexample :
    allFilled (JValue.obj []) = true ∧ compute_fill_rate (JValue.obj []) = 0 := by
  refine ⟨rfl, ?_⟩
  norm_num [compute_fill_rate, count_leaves, countLeavesObj]

/-- C7 (amended): for every structure the fill rate lies in `[0,1]`; a
skeleton in which every leaf is a placeholder has fill rate `0`; and a
skeleton *with at least one counted leaf* in which every leaf is a
non-null, non-placeholder, non-empty value has fill rate `1` (the
leaf-existence proviso is what the counterexample forces: a leafless
structure has fill rate `0`). -/
theorem C7_fill_rate (v : JValue) :
    (0 ≤ compute_fill_rate v ∧ compute_fill_rate v ≤ 1) ∧
    (allPlaceholder v = true → compute_fill_rate v = 0) ∧
    (allFilled v = true → hasLeaf v = true → compute_fill_rate v = 1) := by
  have hle := count_leaves_le v
  have hpos : (0 : ℚ) < ((max (count_leaves v).1 1 : ℕ) : ℚ) := by
    exact_mod_cast (by omega : 0 < max (count_leaves v).1 1)
  refine ⟨⟨?_, ?_⟩, ?_, ?_⟩
  · unfold compute_fill_rate
    positivity
  · unfold compute_fill_rate
    rw [div_le_one hpos]
    exact_mod_cast le_trans hle (le_max_left _ _)
  · intro h
    unfold compute_fill_rate
    rw [allPlaceholder_filled_zero v h]
    simp
  · intro h1 h2
    unfold compute_fill_rate
    have htot := hasLeaf_total_pos v h2
    rw [allFilled_filled_eq v h1]
    have hmax : max (count_leaves v).1 1 = (count_leaves v).1 := by omega
    rw [hmax, div_self]
    exact_mod_cast (by omega : (count_leaves v).1 ≠ 0)

/-- Witness for C7's amended theorem at concrete inputs: an
all-placeholder one-field skeleton has rate `0` and a fully populated
one-field skeleton has rate `1`. -/
theorem C7_fill_rate_witness :
    (allPlaceholder (JValue.obj [("x", .str "...")]) = true ∧
      compute_fill_rate (JValue.obj [("x", .str "...")]) = 0) ∧
    (allFilled (JValue.obj [("x", .str "hello")]) = true ∧
      hasLeaf (JValue.obj [("x", .str "hello")]) = true ∧
      compute_fill_rate (JValue.obj [("x", .str "hello")]) = 1) :=
  ⟨⟨by decide, (C7_fill_rate _).2.1 (by decide)⟩,
   ⟨by decide, by decide,
    (C7_fill_rate _).2.2 (by decide) (by decide)⟩⟩

theorem deriveEqType_scale_eq (special : Option String) (sm es ot : String)
    (h : es ≠ "") : (deriveEqType special sm es ot).2.1 = es := by
  unfold deriveEqType
  split
  · rfl
  · split
    · rfl
    · split
      · rfl
      · split
        · simp [h]
        · split
          · simp [h]
          · split
            · simp [h]
            · rfl

theorem ratio_scales_cases {es : String} (h : RATIO_SCALES.contains es = true) :
    es = "HR" ∨ es = "OR" ∨ es = "RR" ∨ es = "IRR" := by
  have h2 : es ∈ RATIO_SCALES := List.elem_iff.mp h
  simpa [RATIO_SCALES] using h2

theorem deriveMu_ratio (es eq : String) (h : RATIO_SCALES.contains es = true) :
    (deriveMu es eq).1.family = "ratio" := by
  rcases ratio_scales_cases h with h1 | h1 | h1 | h1 <;> subst h1 <;> rfl

theorem derive_mu_ratio_of_scale (edge : JObj) (ev : String)
    (h : RATIO_SCALES.contains (edgeEffectScale edge) = true) :
    (derive_equation_metadata edge ev).mu.family = "ratio" := by
  have hne : edgeEffectScale edge ≠ "" := by
    rcases ratio_scales_cases h with h1 | h1 | h1 | h1 <;> simp [h1]
  show (deriveMu (deriveEqType (_detect_special_equation_type edge ev)
      (edgeStatMethod edge) (edgeEffectScale edge) (edgeOutcomeType edge)).2.1
      (deriveEqType (_detect_special_equation_type edge ev) (edgeStatMethod edge)
        (edgeEffectScale edge) (edgeOutcomeType edge)).1).1.family = "ratio"
  rw [deriveEqType_scale_eq _ _ _ _ hne]
  exact deriveMu_ratio _ _ h

theorem soft_check_mu_cases (edge : JObj) (ev : String) :
    (soft_check_edge edge ev).mu = (derive_equation_metadata edge ev).mu ∨
    (soft_check_edge edge ev).mu = ⟨"ratio", "HR", "log"⟩ := by
  unfold soft_check_edge
  dsimp only
  split
  · split
    · right; rfl
    · right; rfl
  · split
    · left; rfl
    · left; rfl

theorem soft_check_difference_not_ratio_scale (edge : JObj) (ev : String)
    (h : (soft_check_edge edge ev).mu.family = "difference") :
    RATIO_SCALES.contains (pyStrip (pyStr (dGetD edge "effect_scale" (.str "")))) = false := by
  by_cases hc : RATIO_SCALES.contains (edgeEffectScale edge) = true
  · exfalso
    rcases soft_check_mu_cases edge ev with hm | hm
    · rw [hm, derive_mu_ratio_of_scale edge ev hc] at h
      exact absurd h (by decide)
    · rw [hm] at h
      exact absurd h (by decide)
  · simpa using hc

/-- C1: with `mu` the descriptor derived by the soft check, - if
`mu.family = "ratio"` and the reported estimate parses to a number
`e > 0`, `precompute_theta` returns `theta_hat = logR e` where `logR`
stands for the code's natural-log-then-round-to-4-decimals float map;
- if `mu.family = "ratio"` and the estimate is missing, non-numeric, or
parses to `e ≤ 0`, `theta_hat` is null; - if `mu.family = "difference"`
the parsed estimate passes through unchanged. -/
theorem C1_precompute_theta (logR : ℚ → ℚ) (edge : JObj) (evidence_type : String) :
    ((soft_check_edge edge evidence_type).mu.family = "ratio" →
      ∀ e : ℚ, pyFloat (dGet edge "estimate") = some e → 0 < e →
        (precompute_theta logR edge (soft_check_edge edge evidence_type).mu).theta_hat
          = some (logR e)) ∧
    ((soft_check_edge edge evidence_type).mu.family = "ratio" →
      (pyFloat (dGet edge "estimate") = none ∨
        (∃ e : ℚ, pyFloat (dGet edge "estimate") = some e ∧ e ≤ 0)) →
      (precompute_theta logR edge (soft_check_edge edge evidence_type).mu).theta_hat
        = none) ∧
    ((soft_check_edge edge evidence_type).mu.family = "difference" →
      ∀ e : ℚ, pyFloat (dGet edge "estimate") = some e →
        (precompute_theta logR edge (soft_check_edge edge evidence_type).mu).theta_hat
          = some e) := by
  refine ⟨?_, ?_, ?_⟩
  · intro hfam e hf hpos
    have hnull : ¬(dGet edge "estimate" = JValue.null) := by
      intro hn; rw [hn] at hf; exact Option.noConfusion hf
    have hor : (RATIO_SCALES.contains (pyStrip (pyStr (dGetD edge "effect_scale" (.str "")))) ||
        decide ((soft_check_edge edge evidence_type).mu.family = "ratio")) = true := by
      rw [hfam]; simp
    unfold precompute_theta
    dsimp only
    rw [if_neg hnull]
    simp only [hf]
    rw [if_pos hor, if_pos hpos]
    split
    · split <;> rfl
    · rfl
  · intro hfam hcase
    have hor : (RATIO_SCALES.contains (pyStrip (pyStr (dGetD edge "effect_scale" (.str "")))) ||
        decide ((soft_check_edge edge evidence_type).mu.family = "ratio")) = true := by
      rw [hfam]; simp
    unfold precompute_theta
    dsimp only
    by_cases hnull : dGet edge "estimate" = JValue.null
    · rw [if_pos hnull]
    · rw [if_neg hnull]
      rcases hcase with hf | ⟨e, hf, hle⟩
      · simp only [hf]
      · simp only [hf]
        rw [if_pos hor, if_neg (not_lt.mpr hle)]
        split
        · split <;> rfl
        · rfl
  · intro hfam e hf
    have hnull : ¬(dGet edge "estimate" = JValue.null) := by
      intro hn; rw [hn] at hf; exact Option.noConfusion hf
    have hor : (RATIO_SCALES.contains (pyStrip (pyStr (dGetD edge "effect_scale" (.str "")))) ||
        decide ((soft_check_edge edge evidence_type).mu.family = "ratio")) = false := by
      rw [soft_check_difference_not_ratio_scale edge evidence_type hfam]
      rw [hfam]
      simp
    unfold precompute_theta
    dsimp only
    rw [if_neg hnull]
    simp only [hf]
    rw [if_neg (by rw [hor]; exact Bool.false_ne_true)]
    split
    · split <;> rfl
    · rfl

/-- Witness for C1: on `c1Edge` the derived mu family is ratio, the
estimate parses to `2 > 0`, and `theta_hat` is the log-map applied to
the estimate (instantiating the abstract log map with the identity). -/
theorem C1_precompute_theta_witness :
    (soft_check_edge c1Edge "causal").mu.family = "ratio" ∧
    pyFloat (dGet c1Edge "estimate") = some (2 : ℚ) ∧ (0 : ℚ) < 2 ∧
    (precompute_theta id c1Edge (soft_check_edge c1Edge "causal").mu).theta_hat
      = some (id (2 : ℚ)) :=
  ⟨by decide, rfl, by norm_num,
   (C1_precompute_theta id c1Edge "causal").1 (by decide) 2 rfl (by norm_num)⟩

theorem derive_eq_type_eq (edge : JObj) (ev : String) :
    (derive_equation_metadata edge ev).equation_type =
      (deriveEqType (_detect_special_equation_type edge ev) (edgeStatMethod edge)
        (edgeEffectScale edge) (edgeOutcomeType edge)).1 := rfl

theorem derive_issues_eq (edge : JObj) (ev : String) :
    (derive_equation_metadata edge ev).issues =
      (deriveEqType (_detect_special_equation_type edge ev) (edgeStatMethod edge)
          (edgeEffectScale edge) (edgeOutcomeType edge)).2.2 ++
        (deriveModel (edgeStatMethod edge)
          (deriveEqType (_detect_special_equation_type edge ev) (edgeStatMethod edge)
            (edgeEffectScale edge) (edgeOutcomeType edge)).1
          (deriveEqType (_detect_special_equation_type edge ev) (edgeStatMethod edge)
            (edgeEffectScale edge) (edgeOutcomeType edge)).2.1
          (edgeOutcomeType edge)).2 ++
        (deriveMu
          (deriveEqType (_detect_special_equation_type edge ev) (edgeStatMethod edge)
            (edgeEffectScale edge) (edgeOutcomeType edge)).2.1
          (deriveEqType (_detect_special_equation_type edge ev) (edgeStatMethod edge)
            (edgeEffectScale edge) (edgeOutcomeType edge)).1).2 := rfl

/-- C3: equation-type derivation follows the strict priority order.
Keyword detection (mediation ⇒ E4, then an `"interaction:"`/
`"interaction "` X prefix or an interaction keyword ⇒ E6, then
longitudinal keywords ⇒ E3, first match wins) takes precedence over a
recognized `statistical_method` hint, which takes precedence over the
effect-scale table, which takes precedence over the outcome-type
fallback; when nothing applies the result is `"E1"` together with a
recorded `derive_eq_type_fallback` warning issue. -/
theorem C3_equation_priority (edge : JObj) (ev : String) :
    (anyKeywordIn MEDIATION_KEYWORDS (edgeSearchable edge) = true →
      _detect_special_equation_type edge ev = some "E4") ∧
    (anyKeywordIn MEDIATION_KEYWORDS (edgeSearchable edge) = false →
      (strStarts (lowerStr (pyStr (dGetD edge "X" (.str "")))) "interaction:" = true ∨
       strStarts (lowerStr (pyStr (dGetD edge "X" (.str "")))) "interaction " = true ∨
       anyKeywordIn INTERACTION_KEYWORDS (edgeSearchable edge) = true) →
      _detect_special_equation_type edge ev = some "E6") ∧
    (anyKeywordIn MEDIATION_KEYWORDS (edgeSearchable edge) = false →
      strStarts (lowerStr (pyStr (dGetD edge "X" (.str "")))) "interaction:" = false →
      strStarts (lowerStr (pyStr (dGetD edge "X" (.str "")))) "interaction " = false →
      anyKeywordIn INTERACTION_KEYWORDS (edgeSearchable edge) = false →
      anyKeywordIn LONGITUDINAL_KEYWORDS (edgeSearchable edge) = true →
      _detect_special_equation_type edge ev = some "E3") ∧
    (∀ eq, _detect_special_equation_type edge ev = some eq →
      (derive_equation_metadata edge ev).equation_type = eq) ∧
    (_detect_special_equation_type edge ev = none →
      ∀ pr, lookupStr (edgeStatMethod edge) method_to_eq = some pr →
        (derive_equation_metadata edge ev).equation_type = pr.1) ∧
    (_detect_special_equation_type edge ev = none →
      lookupStr (edgeStatMethod edge) method_to_eq = none →
      ∀ eq, lookupStr (edgeEffectScale edge) EFFECT_SCALE_TO_EQUATION_TYPE = some eq →
        (derive_equation_metadata edge ev).equation_type = eq) ∧
    (_detect_special_equation_type edge ev = none →
      lookupStr (edgeStatMethod edge) method_to_eq = none →
      lookupStr (edgeEffectScale edge) EFFECT_SCALE_TO_EQUATION_TYPE = none →
      ((edgeOutcomeType edge = "survival" →
          (derive_equation_metadata edge ev).equation_type = "E2") ∧
       (edgeOutcomeType edge = "binary" →
          (derive_equation_metadata edge ev).equation_type = "E1") ∧
       (edgeOutcomeType edge = "continuous" →
          (derive_equation_metadata edge ev).equation_type = "E1") ∧
       (edgeOutcomeType edge ≠ "survival" → edgeOutcomeType edge ≠ "binary" →
        edgeOutcomeType edge ≠ "continuous" →
          (derive_equation_metadata edge ev).equation_type = "E1" ∧
          ∃ m, (⟨"derive_eq_type_fallback", "warning", m⟩ : DerivationIssue) ∈
            (derive_equation_metadata edge ev).issues))) := by
  refine ⟨?_, ?_, ?_, ?_, ?_, ?_, ?_⟩
  · intro hmed
    unfold _detect_special_equation_type
    dsimp only
    rw [if_pos hmed]
  · intro hmed hdisj
    unfold _detect_special_equation_type
    dsimp only
    rw [if_neg (by simp [hmed])]
    by_cases hpre : (strStarts (lowerStr (pyStr (dGetD edge "X" (.str "")))) "interaction:" ||
        strStarts (lowerStr (pyStr (dGetD edge "X" (.str "")))) "interaction ") = true
    · rw [if_pos hpre]
    · rw [if_neg hpre]
      simp only [Bool.or_eq_true, not_or, Bool.not_eq_true] at hpre
      have hint : anyKeywordIn INTERACTION_KEYWORDS (edgeSearchable edge) = true := by
        rcases hdisj with h | h | h
        · rw [h] at hpre; exact absurd hpre.1 (by simp)
        · rw [h] at hpre; exact absurd hpre.2 (by simp)
        · exact h
      rw [if_pos (by simp [hint])]
  · intro hmed hp1 hp2 hint hlong
    unfold _detect_special_equation_type
    dsimp only
    rw [if_neg (by simp [hmed]), if_neg (by simp [hp1, hp2]),
      if_neg (by simp [hint]), if_pos (by simp [hlong])]
  · intro eq hs
    rw [derive_eq_type_eq, hs]
    rfl
  · intro hs pr hm
    rw [derive_eq_type_eq, hs]
    unfold deriveEqType
    simp only [hm]
  · intro hs hm eq hes
    rw [derive_eq_type_eq, hs]
    unfold deriveEqType
    simp only [hm, hes]
  · intro hs hm hes
    refine ⟨?_, ?_, ?_, ?_⟩
    · intro hot
      rw [derive_eq_type_eq, hs]
      unfold deriveEqType
      simp only [hm, hes]
      rw [if_pos hot]
    · intro hot
      rw [derive_eq_type_eq, hs]
      unfold deriveEqType
      simp only [hm, hes]
      by_cases hsr : edgeOutcomeType edge = "survival"
      · rw [hot] at hsr; exact absurd hsr (by decide)
      · rw [if_neg hsr, if_pos hot]
    · intro hot
      rw [derive_eq_type_eq, hs]
      unfold deriveEqType
      simp only [hm, hes]
      by_cases hsr : edgeOutcomeType edge = "survival"
      · rw [hot] at hsr; exact absurd hsr (by decide)
      · by_cases hbr : edgeOutcomeType edge = "binary"
        · rw [hot] at hbr; exact absurd hbr (by decide)
        · rw [if_neg hsr, if_neg hbr, if_pos hot]
    · intro h1 h2 h3
      constructor
      · rw [derive_eq_type_eq, hs]
        unfold deriveEqType
        simp only [hm, hes]
        rw [if_neg h1, if_neg h2, if_neg h3]
      · refine ⟨"Could not derive equation_type from statistical_method=\x27" ++
          edgeStatMethod edge ++ "\x27, effect_scale=\x27" ++ edgeEffectScale edge ++
          "\x27, outcome_type=\x27" ++ edgeOutcomeType edge ++ "\x27. Defaulting to E1.", ?_⟩
        rw [derive_issues_eq, hs]
        unfold deriveEqType
        simp only [hm, hes]
        rw [if_neg h1, if_neg h2, if_neg h3]
        simp

/-- Witness for C3: the method hint decides the equation type when no
keyword fires. -/
theorem C3_equation_priority_witness :
    _detect_special_equation_type c3Edge "causal" = none ∧
    lookupStr (edgeStatMethod c3Edge) method_to_eq = some ("E2", "Cox") ∧
    (derive_equation_metadata c3Edge "causal").equation_type = "E2" :=
  ⟨by decide, by decide,
   (C3_equation_priority c3Edge "causal").2.2.2.2.1 (by decide) ("E2", "Cox") (by decide)⟩

/-- C8: the hard check's `passed` flag is `false` exactly when the
edge's point estimate is non-null and none of its renderings appears in
the collapsed paper text; null values are vacuously found; a CI-bound
or p-value mismatch is recorded in `missing_values` but never makes
`passed` false (the equivalence shows `passed` depends on the estimate
alone). -/
theorem C8_hard_check (renderings : ℚ → List String) (edge : JObj) (text : String) :
    ((hard_check_edge renderings edge text).passed = false ↔
      (dGet edge "estimate" ≠ .null ∧
        _number_appears_in_text renderings (dGet edge "estimate") text = false)) ∧
    (_number_appears_in_text renderings .null text = true) ∧
    (∀ b0 b1 : JValue, dGetD edge "ci" (.arr [.null, .null]) = .arr [b0, b1] →
      b0 ≠ .null → _number_appears_in_text renderings b0 text = false →
      ("ci_lower=" ++ pyStr b0) ∈ (hard_check_edge renderings edge text).missing_values) ∧
    (dGet edge "p_value" ≠ .null →
      _number_appears_in_text renderings (dGet edge "p_value") text = false →
      ("p_value=" ++ pyStr (dGet edge "p_value")) ∈
        (hard_check_edge renderings edge text).missing_values) := by
  refine ⟨?_, rfl, ?_, ?_⟩
  · unfold hard_check_edge
    dsimp only
    split
    · rename_i hcond
      simp [hcond]
    · rename_i hcond
      simp [hcond]
  · intro b0 b1 hci hb0 hnf
    unfold hard_check_edge
    dsimp only
    rw [hci]
    dsimp only
    refine List.mem_append.2 (Or.inl (List.mem_append.2 (Or.inr ?_)))
    refine List.mem_append.2 (Or.inl ?_)
    unfold hardCheckPart
    rw [if_pos hb0, hnf]
    simp
  · intro hp hnf
    unfold hard_check_edge
    dsimp only
    refine List.mem_append.2 (Or.inr ?_)
    unfold hardCheckPart
    rw [if_pos hp, hnf]
    simp

/-- Witness for C8: on `c8Edge` against a text containing none of the
values, `passed` is false because the estimate is missing from the
text, and the CI/p-value misses are recorded in `missing_values`. -/
theorem C8_hard_check_witness :
    (hard_check_edge c8Render c8Edge "no numbers").passed = false ∧
    ("ci_lower=" ++ pyStr (.str "0.5")) ∈
      (hard_check_edge c8Render c8Edge "no numbers").missing_values ∧
    ("p_value=" ++ pyStr (dGet c8Edge "p_value")) ∈
      (hard_check_edge c8Render c8Edge "no numbers").missing_values :=
  ⟨(C8_hard_check c8Render c8Edge "no numbers").1.mpr ⟨by decide, by decide⟩,
   (C8_hard_check c8Render c8Edge "no numbers").2.2.1 (.str "0.5") .null
     (by decide) (by decide) (by decide),
   (C8_hard_check c8Render c8Edge "no numbers").2.2.2 (by decide) (by decide)⟩

theorem findVal_setKey_self (k : String) (f : JValue → JValue) (l : JObj) :
    findVal k (setKey k f l) = (findVal k l).map f := by
  induction l with
  | nil => rfl
  | cons p rest ih =>
      obtain ⟨k1, v1⟩ := p
      by_cases he : k1 = k
      · rw [setKey, if_pos he]
        simp [findVal, he]
      · rw [setKey, if_neg he]
        simp only [findVal, if_neg he, ih]

theorem findVal_setKey_ne {k k1 : String} (h : k1 ≠ k) (f : JValue → JValue)
    (l : JObj) : findVal k (setKey k1 f l) = findVal k l := by
  induction l with
  | nil => rfl
  | cons p rest ih =>
      obtain ⟨k2, v2⟩ := p
      by_cases he : k2 = k1
      · rw [setKey, if_pos he]
        have : k2 ≠ k := by rw [he]; exact h
        simp [findVal, this]
      · rw [setKey, if_neg he]
        by_cases he2 : k2 = k
        · simp [findVal, he2]
        · simp only [findVal, if_neg he2, ih]

theorem keyIn_setKey (k k1 : String) (f : JValue → JValue) (l : JObj) :
    keyIn k (setKey k1 f l) = keyIn k l := by
  induction l with
  | nil => rfl
  | cons p rest ih =>
      obtain ⟨k2, v2⟩ := p
      by_cases he : k2 = k1
      · rw [setKey, if_pos he]
        simp [keyIn]
      · rw [setKey, if_neg he]
        simp only [keyIn, List.any_cons] at ih ⊢
        rw [ih]

theorem findVal_filterKey (pred : String → Bool) {k : String} (hk : pred k = true)
    (l : JObj) : findVal k (l.filter (fun p => pred p.1)) = findVal k l := by
  induction l with
  | nil => rfl
  | cons p rest ih =>
      obtain ⟨k1, v1⟩ := p
      by_cases he : k1 = k
      · subst he
        rw [List.filter_cons_of_pos (by simpa using hk)]
        simp [findVal]
      · by_cases hp : pred k1 = true
        · rw [List.filter_cons_of_pos (by simpa using hp)]
          simp only [findVal, if_neg he, ih]
        · rw [List.filter_cons_of_neg (by simpa using hp)]
          simp only [findVal, if_neg he, ih]

theorem keyIn_filterKey (pred : String → Bool) {k : String} (hk : pred k = true)
    (l : JObj) : keyIn k (l.filter (fun p => pred p.1)) = keyIn k l := by
  induction l with
  | nil => rfl
  | cons p rest ih =>
      obtain ⟨k1, v1⟩ := p
      by_cases he : k1 = k
      · subst he
        rw [List.filter_cons_of_pos (by simpa using hk)]
        simp [keyIn]
      · by_cases hp : pred k1 = true
        · rw [List.filter_cons_of_pos (by simpa using hp)]
          simp only [keyIn, List.any_cons] at ih ⊢
          rw [ih]
        · rw [List.filter_cons_of_neg (by simpa using hp)]
          simp only [keyIn, List.any_cons] at ih ⊢
          rw [ih]
          simp [he]

theorem mem_key_filterKeys {allowed : List String} {m : JObj} {k : String}
    {v : JValue} (h : (k, v) ∈ filterKeys allowed m) :
    allowed.contains k = true ∧ (k, v) ∈ m := by
  rw [filterKeys] at h
  have := List.mem_filter.1 h
  exact ⟨this.2, this.1⟩

theorem fixDsObj_cons (k : String) (v : JValue) (rest : JObj) :
    fixDsObj ((k, v) :: rest) = (k, fixEntryVal k v) :: fixDsObj rest := by
  cases v <;> rfl

theorem findVal_fixDsObj (k : String) (l : JObj) :
    findVal k (fixDsObj l) = (findVal k l).map (fixEntryVal k) := by
  induction l with
  | nil => rfl
  | cons p rest ih =>
      obtain ⟨k1, v1⟩ := p
      rw [fixDsObj_cons]
      by_cases he : k1 = k
      · subst he
        simp [findVal]
      · simp only [findVal, if_neg he, ih]

theorem mem_fixDsObj {l : JObj} {k : String} {v : JValue}
    (h : (k, v) ∈ fixDsObj l) : ∃ v0, (k, v0) ∈ l ∧ v = fixEntryVal k v0 := by
  induction l with
  | nil => simp [fixDsObj] at h
  | cons p rest ih =>
      obtain ⟨k1, v1⟩ := p
      rw [fixDsObj_cons] at h
      rcases List.mem_cons.1 h with h1 | h2
      · injection h1 with hk hv
        subst hk
        exact ⟨v1, List.mem_cons_self .., hv⟩
      · obtain ⟨v0, hm, hv⟩ := ih h2
        exact ⟨v0, List.mem_cons_of_mem _ hm, hv⟩

theorem mem_fixDsArr {l : List JValue} {v : JValue} (h : v ∈ fixDsArr l) :
    ∃ v0, v0 ∈ l ∧ v = fixDs v0 := by
  induction l with
  | nil => simp [fixDsArr] at h
  | cons x rest ih =>
      rw [fixDsArr] at h
      rcases List.mem_cons.1 h with h1 | h2
      · exact ⟨x, List.mem_cons_self .., h1⟩
      · obtain ⟨v0, hm, hv⟩ := ih h2
        exact ⟨v0, List.mem_cons_of_mem _ hm, hv⟩

theorem findVal_some_of_keyIn {k : String} {l : JObj} (h : keyIn k l = true) :
    ∃ v, findVal k l = some v := by
  induction l with
  | nil => simp [keyIn] at h
  | cons p rest ih =>
      by_cases he : p.1 = k
      · exact ⟨p.2, by simp [findVal, he]⟩
      · simp only [keyIn, List.any_cons, Bool.or_eq_true, decide_eq_true_eq] at h
        rcases h with h1 | h2
        · exact absurd h1 he
        · obtain ⟨v, hv⟩ := ih h2
          exact ⟨v, by simp [findVal, he, hv]⟩

theorem findVal_append_single_ne {k k1 : String} (h : k1 ≠ k) (v : JValue)
    (l : JObj) : findVal k (l ++ [(k1, v)]) = findVal k l := by
  induction l with
  | nil => simp [findVal, h]
  | cons p rest ih =>
      by_cases he : p.1 = k
      · simp [findVal, he]
      · simp only [List.cons_append, findVal, if_neg he, List.append_eq, ih]

theorem keyIn_append_single (k k1 : String) (v : JValue) (l : JObj) :
    keyIn k (l ++ [(k1, v)]) = (keyIn k l || decide (k1 = k)) := by
  rw [keyIn_append]
  simp [keyIn]

theorem enforceHmObj_top_keys (eqt : JValue) (hm : JObj) {k : String} {v : JValue}
    (h : (k, v) ∈ enforceHmObj eqt hm) : ALLOWED_HPP_TOP_KEYS.contains k = true :=
  (mem_key_filterKeys h).1

theorem findVal_ensure_ne {k k1 : String} (h : k1 ≠ k) (l : JObj) (c : Prop)
    [Decidable c] :
    findVal k (if c then l else l ++ [(k1, .null)]) = findVal k l := by
  split
  · rfl
  · exact findVal_append_single_ne h _ l

theorem findVal_condSetKey_ne {k k1 : String} (h : k1 ≠ k) (f : JValue → JValue)
    (l : JObj) (c : Prop) [Decidable c] :
    findVal k (if c then l else setKey k1 f l) = findVal k l := by
  split
  · rfl
  · exact findVal_setKey_ne h f l

theorem keyIn_ensure_ne (k k1 : String) (l : JObj) (c : Prop) [Decidable c] :
    keyIn k (if c then l else l ++ [(k1, .null)]) =
      (keyIn k l || (!(decide c)) && decide (k1 = k)) := by
  split
  · rename_i hc
    simp [hc]
  · rename_i hc
    rw [keyIn_append_single]
    simp [hc]

theorem keyIn_condSetKey (k k1 : String) (f : JValue → JValue) (l : JObj)
    (c : Prop) [Decidable c] :
    keyIn k (if c then l else setKey k1 f l) = keyIn k l := by
  split
  · rfl
  · exact keyIn_setKey k k1 f l

theorem enforceHmObj_X (eqt : JValue) (hm : JObj) :
    findVal "X" (enforceHmObj eqt hm) = (findVal "X" hm).map cleanRole := by
  unfold enforceHmObj
  dsimp only
  rw [filterKeys, findVal_filterKey _ (by decide),
    findVal_condSetKey_ne (by decide), findVal_condSetKey_ne (by decide),
    findVal_ensure_ne (by decide), findVal_ensure_ne (by decide),
    findVal_setKey_ne (by decide), findVal_setKey_ne (by decide),
    findVal_setKey_self]

theorem enforceHmObj_Y (eqt : JValue) (hm : JObj) :
    findVal "Y" (enforceHmObj eqt hm) = (findVal "Y" hm).map cleanRole := by
  unfold enforceHmObj
  dsimp only
  rw [filterKeys, findVal_filterKey _ (by decide),
    findVal_condSetKey_ne (by decide), findVal_condSetKey_ne (by decide),
    findVal_ensure_ne (by decide), findVal_ensure_ne (by decide),
    findVal_setKey_ne (by decide), findVal_setKey_self,
    findVal_setKey_ne (by decide)]

theorem enforceHmObj_Z (eqt : JValue) (hm : JObj) :
    findVal "Z" (enforceHmObj eqt hm) = (findVal "Z" hm).map cleanZ := by
  unfold enforceHmObj
  dsimp only
  rw [filterKeys, findVal_filterKey _ (by decide),
    findVal_condSetKey_ne (by decide), findVal_condSetKey_ne (by decide),
    findVal_ensure_ne (by decide), findVal_ensure_ne (by decide),
    findVal_setKey_self, findVal_setKey_ne (by decide),
    findVal_setKey_ne (by decide)]

theorem enforceHmObj_M_present (eqt : JValue) (hm : JObj) :
    keyIn "M" (enforceHmObj eqt hm) = true := by
  unfold enforceHmObj
  dsimp only
  rw [filterKeys, keyIn_filterKey _ (by decide),
    keyIn_condSetKey, keyIn_condSetKey, keyIn_ensure_ne]
  by_cases hc : keyIn "M" (setKey "Z" cleanZ (setKey "Y" cleanRole (setKey "X" cleanRole hm))) = true
  · rw [if_pos hc, hc]
    simp
  · rw [if_neg hc, keyIn_append_single]
    simp

theorem enforceHmObj_X2_present (eqt : JValue) (hm : JObj) :
    keyIn "X2" (enforceHmObj eqt hm) = true := by
  unfold enforceHmObj
  dsimp only
  rw [filterKeys, keyIn_filterKey _ (by decide),
    keyIn_condSetKey, keyIn_condSetKey]
  by_cases hc : keyIn "X2"
      (if keyIn "M" (setKey "Z" cleanZ (setKey "Y" cleanRole (setKey "X" cleanRole hm))) = true then
        setKey "Z" cleanZ (setKey "Y" cleanRole (setKey "X" cleanRole hm))
      else setKey "Z" cleanZ (setKey "Y" cleanRole (setKey "X" cleanRole hm)) ++ [("M", .null)]) = true
  · rw [if_pos hc, hc]
  · rw [if_neg hc, keyIn_append_single]
    simp

theorem enforceHmObj_M_null (eqt : JValue) (hm : JObj) (hne : eqt ≠ .str "E4") :
    findVal "M" (enforceHmObj eqt hm) = some .null := by
  have hkey : keyIn "M"
      (if keyIn "X2"
          (if keyIn "M" (setKey "Z" cleanZ (setKey "Y" cleanRole (setKey "X" cleanRole hm))) = true then
            setKey "Z" cleanZ (setKey "Y" cleanRole (setKey "X" cleanRole hm))
          else setKey "Z" cleanZ (setKey "Y" cleanRole (setKey "X" cleanRole hm)) ++ [("M", .null)]) = true then
        (if keyIn "M" (setKey "Z" cleanZ (setKey "Y" cleanRole (setKey "X" cleanRole hm))) = true then
          setKey "Z" cleanZ (setKey "Y" cleanRole (setKey "X" cleanRole hm))
        else setKey "Z" cleanZ (setKey "Y" cleanRole (setKey "X" cleanRole hm)) ++ [("M", .null)])
      else
        (if keyIn "M" (setKey "Z" cleanZ (setKey "Y" cleanRole (setKey "X" cleanRole hm))) = true then
          setKey "Z" cleanZ (setKey "Y" cleanRole (setKey "X" cleanRole hm))
        else setKey "Z" cleanZ (setKey "Y" cleanRole (setKey "X" cleanRole hm)) ++ [("M", .null)]) ++
          [("X2", .null)]) = true := by
    rw [keyIn_ensure_ne]
    by_cases hc : keyIn "M" (setKey "Z" cleanZ (setKey "Y" cleanRole (setKey "X" cleanRole hm))) = true
    · rw [if_pos hc, hc]
      simp
    · rw [if_neg hc, keyIn_append_single]
      simp
  unfold enforceHmObj
  dsimp only
  rw [filterKeys, findVal_filterKey _ (by decide),
    findVal_condSetKey_ne (by decide), if_neg hne, findVal_setKey_self]
  obtain ⟨v, hv⟩ := findVal_some_of_keyIn hkey
  rw [hv]
  rfl

theorem enforceHmObj_X2_null (eqt : JValue) (hm : JObj) (hne : eqt ≠ .str "E6") :
    findVal "X2" (enforceHmObj eqt hm) = some .null := by
  have hkey : keyIn "X2"
      (if eqt = .str "E4" then
        (if keyIn "X2"
            (if keyIn "M" (setKey "Z" cleanZ (setKey "Y" cleanRole (setKey "X" cleanRole hm))) = true then
              setKey "Z" cleanZ (setKey "Y" cleanRole (setKey "X" cleanRole hm))
            else setKey "Z" cleanZ (setKey "Y" cleanRole (setKey "X" cleanRole hm)) ++ [("M", .null)]) = true then
          (if keyIn "M" (setKey "Z" cleanZ (setKey "Y" cleanRole (setKey "X" cleanRole hm))) = true then
            setKey "Z" cleanZ (setKey "Y" cleanRole (setKey "X" cleanRole hm))
          else setKey "Z" cleanZ (setKey "Y" cleanRole (setKey "X" cleanRole hm)) ++ [("M", .null)])
        else
          (if keyIn "M" (setKey "Z" cleanZ (setKey "Y" cleanRole (setKey "X" cleanRole hm))) = true then
            setKey "Z" cleanZ (setKey "Y" cleanRole (setKey "X" cleanRole hm))
          else setKey "Z" cleanZ (setKey "Y" cleanRole (setKey "X" cleanRole hm)) ++ [("M", .null)]) ++
            [("X2", .null)])
      else
        setKey "M" (fun _ => .null)
          (if keyIn "X2"
              (if keyIn "M" (setKey "Z" cleanZ (setKey "Y" cleanRole (setKey "X" cleanRole hm))) = true then
                setKey "Z" cleanZ (setKey "Y" cleanRole (setKey "X" cleanRole hm))
              else setKey "Z" cleanZ (setKey "Y" cleanRole (setKey "X" cleanRole hm)) ++ [("M", .null)]) = true then
            (if keyIn "M" (setKey "Z" cleanZ (setKey "Y" cleanRole (setKey "X" cleanRole hm))) = true then
              setKey "Z" cleanZ (setKey "Y" cleanRole (setKey "X" cleanRole hm))
            else setKey "Z" cleanZ (setKey "Y" cleanRole (setKey "X" cleanRole hm)) ++ [("M", .null)])
          else
            (if keyIn "M" (setKey "Z" cleanZ (setKey "Y" cleanRole (setKey "X" cleanRole hm))) = true then
              setKey "Z" cleanZ (setKey "Y" cleanRole (setKey "X" cleanRole hm))
            else setKey "Z" cleanZ (setKey "Y" cleanRole (setKey "X" cleanRole hm)) ++ [("M", .null)]) ++
              [("X2", .null)])) = true := by
    rw [keyIn_condSetKey, keyIn_ensure_ne]
    by_cases hc : keyIn "X2"
        (if keyIn "M" (setKey "Z" cleanZ (setKey "Y" cleanRole (setKey "X" cleanRole hm))) = true then
          setKey "Z" cleanZ (setKey "Y" cleanRole (setKey "X" cleanRole hm))
        else setKey "Z" cleanZ (setKey "Y" cleanRole (setKey "X" cleanRole hm)) ++ [("M", .null)]) = true
    · simp [hc]
    · rw [Bool.not_eq_true] at hc
      simp [hc]
  unfold enforceHmObj
  dsimp only
  rw [filterKeys, findVal_filterKey _ (by decide), if_neg hne, findVal_setKey_self]
  obtain ⟨v, hv⟩ := findVal_some_of_keyIn hkey
  rw [hv]
  rfl

theorem keyIn_fixDsObj (k : String) (l : JObj) :
    keyIn k (fixDsObj l) = keyIn k l := by
  induction l with
  | nil => rfl
  | cons p rest ih =>
      obtain ⟨k1, v1⟩ := p
      rw [fixDsObj_cons]
      simp only [keyIn, List.any_cons] at ih ⊢
      rw [ih]

theorem enforceLit_hpp (e : JObj) :
    findVal "hpp_mapping" (enforceLit e) = findVal "hpp_mapping" e := by
  unfold enforceLit
  split
  · rw [findVal_setKey_ne (by decide)]
  · rfl

theorem enforceMu_hpp (e : JObj) :
    findVal "hpp_mapping" (enforceMu e) = findVal "hpp_mapping" e := by
  unfold enforceMu
  split
  · split
    · split
      · rw [findVal_setKey_ne (by decide)]
      · rfl
    · rfl
  · rfl

theorem enforceHm_hpp (e1 : JObj) (hm : JObj)
    (h : findVal "hpp_mapping" e1 = some (.obj hm)) :
    findVal "hpp_mapping" (enforceHm e1) =
      some (.obj (fixDsObj (enforceHmObj (dGetD e1 "equation_type" (.str "")) hm))) := by
  unfold enforceHm
  simp only [h]
  rw [findVal_setKey_self, h]
  rfl

theorem fixEntryVal_X (v : JValue) : fixEntryVal "X" v = fixDs v := rfl

theorem fixEntryVal_Y (v : JValue) : fixEntryVal "Y" v = fixDs v := rfl

theorem cleanRole_fixDs_obj {v0 : JValue} {m : JObj}
    (h : fixDs (cleanRole v0) = .obj m) :
    ∃ m0, v0 = .obj m0 ∧ m = fixDsObj (filterKeys ALLOWED_MAPPING_KEYS m0) := by
  cases v0 with
  | obj m0 =>
      refine ⟨m0, rfl, ?_⟩
      have : fixDs (cleanRole (JValue.obj m0)) =
          .obj (fixDsObj (filterKeys ALLOWED_MAPPING_KEYS m0)) := rfl
      rw [this] at h
      injection h with h2
      exact h2.symm
  | null => exact absurd h (by simp [cleanRole, fixDs])
  | bool b => exact absurd h (by simp [cleanRole, fixDs])
  | num q => exact absurd h (by simp [cleanRole, fixDs])
  | str s => exact absurd h (by simp [cleanRole, fixDs])
  | arr l => exact absurd h (by simp [cleanRole, fixDs])

theorem cleanZ_fixDs_arr {v0 : JValue} {items : List JValue}
    (h : fixDs (cleanZ v0) = .arr items) :
    ∃ items0, v0 = .arr items0 ∧
      items = fixDsArr (items0.map cleanZItem) := by
  cases v0 with
  | arr items0 =>
      refine ⟨items0, rfl, ?_⟩
      have : fixDs (cleanZ (JValue.arr items0)) =
          .arr (fixDsArr (items0.map cleanZItem)) := rfl
      rw [this] at h
      injection h with h2
      exact h2.symm
  | null => exact absurd h (by simp [cleanZ, fixDs])
  | bool b => exact absurd h (by simp [cleanZ, fixDs])
  | num q => exact absurd h (by simp [cleanZ, fixDs])
  | str s => exact absurd h (by simp [cleanZ, fixDs])
  | obj m => exact absurd h (by simp [cleanZ, fixDs])

theorem z_member_clean {items0 : List JValue} {m : JObj}
    (h : JValue.obj m ∈ fixDsArr (items0.map cleanZItem)) :
    ∀ k v, (k, v) ∈ m → ALLOWED_MAPPING_KEYS.contains k = true := by
  intro k v hkv
  obtain ⟨u0, hu0mem, hu0⟩ := mem_fixDsArr h
  obtain ⟨it0, _, hclean⟩ := List.mem_map.1 hu0mem
  cases u0 with
  | obj mm =>
      have hmobj : JValue.obj m = .obj (fixDsObj mm) := by
        rw [hu0]; rfl
      injection hmobj with hmm
      cases it0 with
      | obj m0 =>
          have h2 : JValue.obj (filterKeys ALLOWED_MAPPING_KEYS m0) = .obj mm := hclean
          injection h2 with h3
          rw [hmm, ← h3] at hkv
          obtain ⟨v1, hv1, _⟩ := mem_fixDsObj hkv
          exact (mem_key_filterKeys hv1).1
      | null => exact absurd hclean (by simp [cleanZItem])
      | bool b => exact absurd hclean (by simp [cleanZItem])
      | num q => exact absurd hclean (by simp [cleanZItem])
      | str s => exact absurd hclean (by simp [cleanZItem])
      | arr l => exact absurd hclean (by simp [cleanZItem])
  | null => exact absurd hu0 (by simp [fixDs])
  | bool b => exact absurd hu0 (by simp [fixDs])
  | num q => exact absurd hu0 (by simp [fixDs])
  | str s => exact absurd hu0 (by simp [fixDs])
  | arr l => exact absurd hu0 (by simp [fixDs])

/-- C5 (counterexample): final schema enforcement does not clean the
`M` (or `X2`) role objects — only X, Y and the Z items are stripped to
the allowed keys.  On an E4 edge whose `hpp_mapping.M` carries the
extra key `"junk"`, the enforced output still carries it, refuting the
claim that after enforcement every role object within hpp_mapping
contains no keys outside `{name, dataset, field, status}`. -/
theorem C5_counterexample :
    getPath (.obj (_final_schema_enforcement c5BadEdge)) ["hpp_mapping", "M", "junk"]
      = some (.num 1) ∧
    ALLOWED_MAPPING_KEYS.contains "junk" = false := by
  constructor
  · decide
  · decide

/-- C5 (amended): after final schema enforcement, for every edge whose
(underscore-stripped) object holds `hpp_mapping` as a dict: the
enforced `hpp_mapping` has no keys outside `{X, Y, Z, M, X2}`; the X
and Y role objects, and every dict item of the Z list, have no keys
outside `{name, dataset, field, status}` (the M and X2 role objects are
*not* cleaned, which the counterexample exhibits); `M` and `X2` are
always present; `M` is null whenever `equation_type` is not `"E4"`, and
`X2` is null whenever it is not `"E6"`. -/
theorem C5_schema_enforcement (edge : JObj) (hm : JObj)
    (hpres : findVal "hpp_mapping" (edge.filter (fun p => !strStarts p.1 "_"))
      = some (.obj hm)) :
    ∃ hm2 : JObj,
      findVal "hpp_mapping" (_final_schema_enforcement edge) = some (.obj hm2) ∧
      (∀ k v, (k, v) ∈ hm2 → ALLOWED_HPP_TOP_KEYS.contains k = true) ∧
      (∀ role, role = "X" ∨ role = "Y" → ∀ m, findVal role hm2 = some (.obj m) →
        ∀ k v, (k, v) ∈ m → ALLOWED_MAPPING_KEYS.contains k = true) ∧
      (∀ items, findVal "Z" hm2 = some (.arr items) →
        ∀ m, JValue.obj m ∈ items → ∀ k v, (k, v) ∈ m →
          ALLOWED_MAPPING_KEYS.contains k = true) ∧
      keyIn "M" hm2 = true ∧ keyIn "X2" hm2 = true ∧
      (dGetD (edge.filter (fun p => !strStarts p.1 "_")) "equation_type" (.str "")
          ≠ .str "E4" → findVal "M" hm2 = some .null) ∧
      (dGetD (edge.filter (fun p => !strStarts p.1 "_")) "equation_type" (.str "")
          ≠ .str "E6" → findVal "X2" hm2 = some .null) := by
  set e1 := edge.filter (fun p => !strStarts p.1 "_") with he1
  set eqt := dGetD e1 "equation_type" (.str "") with heqt
  refine ⟨fixDsObj (enforceHmObj eqt hm), ?_, ?_, ?_, ?_, ?_, ?_, ?_, ?_⟩
  · show findVal "hpp_mapping" (enforceMu (enforceLit (enforceHm e1))) = _
    rw [enforceMu_hpp, enforceLit_hpp, enforceHm_hpp e1 hm hpres]
  · intro k v hmem
    obtain ⟨v0, hmem0, _⟩ := mem_fixDsObj hmem
    exact enforceHmObj_top_keys eqt hm hmem0
  · intro role hrole m hfind k v hmem
    rcases hrole with hr | hr
    · subst hr
      rw [findVal_fixDsObj, enforceHmObj_X] at hfind
      rcases hv0 : findVal "X" hm with _ | v0
      · rw [hv0] at hfind; exact Option.noConfusion hfind
      · rw [hv0] at hfind
        simp only [Option.map_map, Option.map_some] at hfind
        have hfx : fixDs (cleanRole v0) = .obj m := by
          have := Option.some.injEq .. ▸ hfind
          injection hfind with h2
        obtain ⟨m0, _, hm0⟩ := cleanRole_fixDs_obj hfx
        rw [hm0] at hmem
        obtain ⟨v1, hv1, _⟩ := mem_fixDsObj hmem
        exact (mem_key_filterKeys hv1).1
    · subst hr
      rw [findVal_fixDsObj, enforceHmObj_Y] at hfind
      rcases hv0 : findVal "Y" hm with _ | v0
      · rw [hv0] at hfind; exact Option.noConfusion hfind
      · rw [hv0] at hfind
        simp only [Option.map_map, Option.map_some] at hfind
        have hfx : fixDs (cleanRole v0) = .obj m := by
          injection hfind with h2
        obtain ⟨m0, _, hm0⟩ := cleanRole_fixDs_obj hfx
        rw [hm0] at hmem
        obtain ⟨v1, hv1, _⟩ := mem_fixDsObj hmem
        exact (mem_key_filterKeys hv1).1
  · intro items hfind m hmobj k v hmem
    rw [findVal_fixDsObj, enforceHmObj_Z] at hfind
    rcases hv0 : findVal "Z" hm with _ | v0
    · rw [hv0] at hfind; exact Option.noConfusion hfind
    · rw [hv0] at hfind
      simp only [Option.map_map, Option.map_some] at hfind
      have hfx : fixDs (cleanZ v0) = .arr items := by
        injection hfind with h2
      obtain ⟨items0, _, hitems⟩ := cleanZ_fixDs_arr hfx
      rw [hitems] at hmobj
      exact z_member_clean hmobj k v hmem
  · rw [keyIn_fixDsObj]
    exact enforceHmObj_M_present eqt hm
  · rw [keyIn_fixDsObj]
    exact enforceHmObj_X2_present eqt hm
  · intro hne
    rw [findVal_fixDsObj, enforceHmObj_M_null eqt hm hne]
    rfl
  · intro hne
    rw [findVal_fixDsObj, enforceHmObj_X2_null eqt hm hne]
    rfl

/-- Witness for C5's amended theorem at `c5GoodEdge`. -/
theorem C5_schema_enforcement_witness :
    findVal "hpp_mapping" (c5GoodEdge.filter (fun p => !strStarts p.1 "_"))
      = some (.obj c5GoodHm) ∧
    (∃ hm2 : JObj,
      findVal "hpp_mapping" (_final_schema_enforcement c5GoodEdge) = some (.obj hm2) ∧
      (∀ k v, (k, v) ∈ hm2 → ALLOWED_HPP_TOP_KEYS.contains k = true) ∧
      (∀ role, role = "X" ∨ role = "Y" → ∀ m, findVal role hm2 = some (.obj m) →
        ∀ k v, (k, v) ∈ m → ALLOWED_MAPPING_KEYS.contains k = true) ∧
      (∀ items, findVal "Z" hm2 = some (.arr items) →
        ∀ m, JValue.obj m ∈ items → ∀ k v, (k, v) ∈ m →
          ALLOWED_MAPPING_KEYS.contains k = true) ∧
      keyIn "M" hm2 = true ∧ keyIn "X2" hm2 = true ∧
      (dGetD (c5GoodEdge.filter (fun p => !strStarts p.1 "_")) "equation_type" (.str "")
          ≠ .str "E4" → findVal "M" hm2 = some .null) ∧
      (dGetD (c5GoodEdge.filter (fun p => !strStarts p.1 "_")) "equation_type" (.str "")
          ≠ .str "E6" → findVal "X2" hm2 = some .null)) :=
  ⟨by decide, C5_schema_enforcement c5GoodEdge c5GoodHm (by decide)⟩

theorem mem_of_mem_firstDedup {α : Type} [DecidableEq α] :
    ∀ {l : List α} {a : α}, a ∈ firstDedup l → a ∈ l := by
  intro l
  induction l using firstDedup.induct with
  | case1 => intro a h; simp [firstDedup] at h
  | case2 x rest ih =>
      intro a h
      rw [firstDedup] at h
      rcases List.mem_cons.1 h with h1 | h2
      · exact h1 ▸ List.mem_cons_self ..
      · exact List.mem_cons_of_mem _ (List.mem_of_mem_filter (ih h2))

theorem mem_firstDedup_of_mem {α : Type} [DecidableEq α] :
    ∀ {l : List α} {a : α}, a ∈ l → a ∈ firstDedup l := by
  intro l
  induction l using firstDedup.induct with
  | case1 => intro a h; simp at h
  | case2 x rest ih =>
      intro a h
      rw [firstDedup]
      by_cases he : a = x
      · exact he ▸ List.mem_cons_self ..
      · rcases List.mem_cons.1 h with h1 | h2
        · exact absurd h1 he
        · exact List.mem_cons_of_mem _ (ih (List.mem_filter.2 ⟨h2, by simp [he]⟩))

theorem count_firstDedup {α : Type} [DecidableEq α] :
    ∀ {l : List α} {a : α}, a ∈ l → (firstDedup l).count a = 1 := by
  intro l
  induction l using firstDedup.induct with
  | case1 => intro a h; simp at h
  | case2 x rest ih =>
      intro a h
      rw [firstDedup]
      by_cases he : a = x
      · subst he
        rw [List.count_cons_self]
        have hnot : a ∉ firstDedup (rest.filter (fun y => y ≠ a)) := by
          intro hmem
          have := mem_of_mem_firstDedup hmem
          have := List.mem_filter.1 this
          simp at this
        rw [List.count_eq_zero.2 hnot]
      · have h2 : a ∈ rest := by
          rcases List.mem_cons.1 h with h1 | h2
          · exact absurd h1 he
          · exact h2
        rw [List.count_cons_of_ne he]
        exact ih (List.mem_filter.2 ⟨h2, by simp [he]⟩)

theorem sigListFrom_ge {i : ℕ} : ∀ {l : List JObj}
    {p : ℕ × (String × String × String)}, p ∈ sigListFrom i l → i ≤ p.1 := by
  intro l
  induction l generalizing i with
  | nil => intro p h; simp [sigListFrom] at h
  | cons e rest ih =>
      intro p h
      rw [sigListFrom] at h
      rcases List.mem_cons.1 h with h1 | h2
      · rw [h1]
      · exact Nat.le_of_succ_le (ih h2)

theorem sigListFrom_unique {i : ℕ} : ∀ {l : List JObj}
    {p q : ℕ × (String × String × String)},
    p ∈ sigListFrom i l → q ∈ sigListFrom i l → p.1 = q.1 → p.2 = q.2 := by
  intro l
  induction l generalizing i with
  | nil => intro p q h; simp [sigListFrom] at h
  | cons e rest ih =>
      intro p q hp hq hpq
      rw [sigListFrom] at hp hq
      rcases List.mem_cons.1 hp with hp1 | hp2 <;>
        rcases List.mem_cons.1 hq with hq1 | hq2
      · rw [hp1, hq1]
      · exfalso
        have := sigListFrom_ge hq2
        rw [← hpq, hp1] at this
        omega
      · exfalso
        have := sigListFrom_ge hp2
        rw [hpq, hq1] at this
        omega
      · exact ih hp2 hq2 hpq

theorem groupIdx_sig {edges : List JObj} {s : String × String × String} {i : ℕ}
    (h : i ∈ groupIdx edges s) : (i, s) ∈ sigList edges := by
  rw [groupIdx] at h
  obtain ⟨p, hp, hpi⟩ := List.mem_map.1 h
  have hpf := List.mem_filter.1 hp
  have hs : p.2 = s := by simpa using hpf.2
  have : p = (i, s) := by
    obtain ⟨p1, p2⟩ := p
    simp only at hpi hs
    rw [hpi, hs]
  exact this ▸ hpf.1

theorem groupIdx_inj {edges : List JObj} {s t : String × String × String}
    (hs : groupIdx edges s ≠ []) (h : groupIdx edges s = groupIdx edges t) :
    s = t := by
  obtain ⟨i, hi⟩ := List.exists_mem_of_ne_nil _ hs
  have h1 := groupIdx_sig hi
  have h2 := groupIdx_sig (h ▸ hi)
  exact sigListFrom_unique h1 h2 rfl

theorem filter_filterMap_single {α β : Type} [DecidableEq α]
    (f : α → Option β) (P : β → Bool) (s : α) (iss : β) :
    ∀ L : List α, L.count s = 1 → f s = some iss → P iss = true →
    (∀ t, t ∈ L → t ≠ s → ∀ b, f t = some b → P b = false) →
    ((L.filterMap f).filter P) = [iss] := by
  intro L
  induction L with
  | nil => intro hc; simp at hc
  | cons a rest ih =>
      intro hc hf hP hother
      by_cases ha : a = s
      · subst ha
        rw [List.count_cons_self] at hc
        have hrest : rest.count a = 0 := by omega
        have hnone : (rest.filterMap f).filter P = [] := by
          rw [List.filter_eq_nil_iff]
          intro b hb
          obtain ⟨t, ht, hft⟩ := List.mem_filterMap.1 hb
          have htne : t ≠ a := fun he =>
            (List.count_eq_zero.1 hrest) (he ▸ ht)
          simp [hother t (List.mem_cons_of_mem _ ht) htne b hft]
        rw [List.filterMap_cons, hf, List.filter_cons_of_pos hP, hnone]
      · have hc2 : rest.count s = 1 := by
          rw [List.count_cons_of_ne (fun he => ha he.symm)] at hc
          exact hc
        have hrec := ih hc2 hf hP
          (fun t ht => hother t (List.mem_cons_of_mem _ ht))
        rw [List.filterMap_cons]
        rcases hfa : f a with _ | b
        · exact hrec
        · rw [List.filter_cons_of_neg
            (by simp [hother a (List.mem_cons_self ..) ha b hfa]), hrec]

theorem titleIssues_type {edges : List JObj} {iss : ReviewIssue}
    (h : iss ∈ titleIssues edges) : iss.type = "metadata_inconsistency" := by
  unfold titleIssues at h
  dsimp only at h
  split at h
  · rcases List.mem_cons.1 h with h1 | h1
    · rw [h1]
    · simp at h1
  · simp at h

theorem modelEqIssues_type {edges : List JObj} {iss : ReviewIssue}
    (h : iss ∈ modelEqIssues edges) : iss.type = "equation_type_inconsistency" := by
  unfold modelEqIssues at h
  obtain ⟨m, _, hf⟩ := List.mem_filterMap.1 h
  dsimp only at hf
  split at hf
  · injection hf with h2
    rw [← h2]
  · exact Option.noConfusion hf

theorem adjIssues_type {edges : List JObj} {iss : ReviewIssue}
    (h : iss ∈ adjIssues edges) : iss.type = "adjustment_set_variation" := by
  unfold adjIssues at h
  dsimp only at h
  split at h
  · rcases List.mem_cons.1 h with h1 | h1
    · rw [h1]
    · simp at h1
  · simp at h

theorem thetaIssues_type {edges : List JObj} {iss : ReviewIssue}
    (h : iss ∈ thetaIssues edges) : iss.type = "theta_scale_suspect" := by
  unfold thetaIssues at h
  obtain ⟨p, _, hf⟩ := List.mem_filterMap.1 h
  dsimp only at hf
  split at hf
  · split at hf
    · split at hf
      · injection hf with h2
        rw [← h2]
      · exact Option.noConfusion hf
    · exact Option.noConfusion hf
  · exact Option.noConfusion hf

/-- C6: whenever two or more edges share the same signature
(lowercased, stripped X, Y, subgroup), the cross-edge consistency check
emits exactly one warning issue of type `"duplicate_edge"` for that
signature, and its `edge_indices` field lists the indices of all the
edges in the group. -/
theorem C6_duplicate_edges (edges : List JObj) (s : String × String × String)
    (h2 : 2 ≤ (groupIdx edges s).length) :
    (check_cross_edge_consistency edges).filter
        (fun iss => decide (iss.type = "duplicate_edge" ∧
          iss.edge_indices = some (groupIdx edges s)))
      = [⟨"duplicate_edge", "warning", dupMessage s (groupIdx edges s).length,
          some (groupIdx edges s)⟩] := by
  have hgne : groupIdx edges s ≠ [] := by
    intro he
    rw [he] at h2
    simp at h2
  obtain ⟨i, hi⟩ := List.exists_mem_of_ne_nil _ hgne
  have hsig : (i, s) ∈ sigList edges := groupIdx_sig hi
  have hsmem : s ∈ (sigList edges).map (fun p => p.2) :=
    List.mem_map.2 ⟨(i, s), hsig, rfl⟩
  have hne : ¬edges.isEmpty = true := by
    intro he
    rw [List.isEmpty_iff.1 he] at hsig
    simp [sigList, sigListFrom] at hsig
  rw [check_cross_edge_consistency, if_neg hne]
  rw [List.filter_append, List.filter_append, List.filter_append,
    List.filter_append]
  have ht1 : (titleIssues edges).filter
      (fun iss => decide (iss.type = "duplicate_edge" ∧
        iss.edge_indices = some (groupIdx edges s))) = [] := by
    rw [List.filter_eq_nil_iff]
    intro iss hmem
    simp [titleIssues_type hmem]
  have ht2 : (modelEqIssues edges).filter
      (fun iss => decide (iss.type = "duplicate_edge" ∧
        iss.edge_indices = some (groupIdx edges s))) = [] := by
    rw [List.filter_eq_nil_iff]
    intro iss hmem
    simp [modelEqIssues_type hmem]
  have ht3 : (adjIssues edges).filter
      (fun iss => decide (iss.type = "duplicate_edge" ∧
        iss.edge_indices = some (groupIdx edges s))) = [] := by
    rw [List.filter_eq_nil_iff]
    intro iss hmem
    simp [adjIssues_type hmem]
  have ht4 : (thetaIssues edges).filter
      (fun iss => decide (iss.type = "duplicate_edge" ∧
        iss.edge_indices = some (groupIdx edges s))) = [] := by
    rw [List.filter_eq_nil_iff]
    intro iss hmem
    simp [thetaIssues_type hmem]
  rw [ht1, ht2, ht3, ht4, List.append_nil, List.append_nil, List.append_nil,
    List.append_nil]
  unfold duplicateIssues
  apply filter_filterMap_single _ _ s
  · exact count_firstDedup hsmem
  · rw [if_pos h2]
  · simp
  · intro t _ htne b hfb
    split at hfb
    · rename_i hlen
      injection hfb with hb
      rw [← hb]
      have htgne : groupIdx edges t ≠ [] := by
        intro he
        rw [he] at hlen
        simp at hlen
      apply decide_eq_false
      rintro ⟨-, hgeq⟩
      have : groupIdx edges t = groupIdx edges s := by
        injection hgeq
      exact htne (groupIdx_inj htgne this)
    · exact Option.noConfusion hfb

/-- Witness for C6: two edges sharing the normalized signature produce
exactly one duplicate warning listing both indices. -/
theorem C6_duplicate_edges_witness :
    2 ≤ (groupIdx [c6Edge1, c6Edge2] ("body mass index", "stroke", "overall")).length ∧
    (check_cross_edge_consistency [c6Edge1, c6Edge2]).filter
        (fun iss => decide (iss.type = "duplicate_edge" ∧
          iss.edge_indices = some (groupIdx [c6Edge1, c6Edge2]
            ("body mass index", "stroke", "overall"))))
      = [⟨"duplicate_edge", "warning",
          dupMessage ("body mass index", "stroke", "overall")
            (groupIdx [c6Edge1, c6Edge2] ("body mass index", "stroke", "overall")).length,
          some (groupIdx [c6Edge1, c6Edge2] ("body mass index", "stroke", "overall"))⟩] :=
  ⟨by decide, C6_duplicate_edges [c6Edge1, c6Edge2] _ (by decide)⟩

theorem mem_insertDescBy {α : Type} (key : α → ℚ) (c : α) :
    ∀ (l : List α) (a : α), a ∈ insertDescBy key c l ↔ a = c ∨ a ∈ l := by
  intro l
  induction l with
  | nil => intro a; simp [insertDescBy]
  | cons d rest ih =>
      intro a
      rw [insertDescBy]
      split
      · simp
      · rw [List.mem_cons, ih a, List.mem_cons]
        tauto

theorem mem_sortDescBy {α : Type} (key : α → ℚ) :
    ∀ (l : List α) (a : α), a ∈ sortDescBy key l ↔ a ∈ l := by
  intro l
  induction l with
  | nil => intro a; simp [sortDescBy]
  | cons c rest ih =>
      intro a
      rw [sortDescBy, mem_insertDescBy, ih, List.mem_cons]

theorem length_insertDescBy {α : Type} (key : α → ℚ) (c : α) :
    ∀ l : List α, (insertDescBy key c l).length = l.length + 1 := by
  intro l
  induction l with
  | nil => rfl
  | cons d rest ih =>
      rw [insertDescBy]
      split
      · rfl
      · simp only [List.length_cons, ih]

theorem length_sortDescBy {α : Type} (key : α → ℚ) :
    ∀ l : List α, (sortDescBy key l).length = l.length := by
  intro l
  induction l with
  | nil => rfl
  | cons c rest ih =>
      rw [sortDescBy, length_insertDescBy, ih]
      rfl

theorem pairwise_insertDescBy {α : Type} (key : α → ℚ) (c : α) :
    ∀ l : List α, l.Pairwise (fun a b => key b ≤ key a) →
      (insertDescBy key c l).Pairwise (fun a b => key b ≤ key a) := by
  intro l
  induction l with
  | nil => intro _; simp [insertDescBy]
  | cons d rest ih =>
      intro h
      have hd := List.pairwise_cons.1 h
      rw [insertDescBy]
      split
      · rename_i hle
        rw [List.pairwise_cons]
        refine ⟨?_, h⟩
        intro b hb
        rcases List.mem_cons.1 hb with h1 | h2
        · rw [h1]; exact hle
        · exact le_trans (hd.1 b h2) hle
      · rename_i hgt
        rw [List.pairwise_cons]
        refine ⟨?_, ih hd.2⟩
        intro b hb
        rcases (mem_insertDescBy key c rest b).1 hb with h1 | h2
        · rw [h1]
          exact le_of_lt (lt_of_not_ge hgt)
        · exact hd.1 b h2

theorem pairwise_sortDescBy {α : Type} (key : α → ℚ) :
    ∀ l : List α, (sortDescBy key l).Pairwise (fun a b => key b ≤ key a) := by
  intro l
  induction l with
  | nil => simp [sortDescBy]
  | cons c rest ih =>
      rw [sortDescBy]
      exact pairwise_insertDescBy key c _ ih

/-- C4: every candidate returned by the field search has score
`(2·|direct hits| + |synonym hits|) / |expanded query tokens|`, where
the direct hits are the matched tokens present in the original
tokenized query and the synonym hits are the matched tokens only
present after expansion; and the returned list is sorted in descending
order of score. -/
theorem C4_search_score (rawDict : List (String × List String)) (query : String)
    (top_k : ℕ) :
    (∀ c, c ∈ search rawDict query top_k →
      c.score = (2 * ((c.matched_tokens ∩ hppTokenize query).card : ℚ) +
        ((c.matched_tokens \ hppTokenize query).card : ℚ)) /
        ((expandSynonyms (hppTokenize query)).card : ℚ)) ∧
    (search rawDict query top_k).Pairwise
      (fun a b => b.score ≤ a.score) := by
  constructor
  · intro c hc
    have hc2 : c ∈ sortDescBy FieldCandidate.score (searchCandidates rawDict query) :=
      List.mem_of_mem_take hc
    have hc3 : c ∈ searchCandidates rawDict query :=
      (mem_sortDescBy _ _ c).1 hc2
    unfold searchCandidates at hc3
    obtain ⟨pr, _, hpr⟩ := List.mem_flatMap.1 hc3
    obtain ⟨f, _, hf⟩ := List.mem_filterMap.1 hpr
    dsimp only at hf
    split at hf
    · rename_i hmz
      injection hf with hf2
      subst hf2
      have hsub : expandSynonyms (hppTokenize query) ∩ pairTokens pr.1 f ⊆
          expandSynonyms (hppTokenize query) := Finset.inter_subset_left
      have hnonempty : (expandSynonyms (hppTokenize query)).Nonempty := by
        rcases Finset.nonempty_iff_ne_empty.2 hmz with ⟨x, hx⟩
        exact ⟨x, hsub hx⟩
      have hcard : 1 ≤ (expandSynonyms (hppTokenize query)).card :=
        Finset.Nonempty.card_pos hnonempty
      have hmax : max (expandSynonyms (hppTokenize query)).card 1 =
          (expandSynonyms (hppTokenize query)).card := by omega
      rw [hmax]
    · exact Option.noConfusion hf
  · exact List.Pairwise.sublist (List.take_sublist _ _)
      (pairwise_sortDescBy FieldCandidate.score _)

theorem C4_search_score_witness :
    c4Cand ∈ search c4Dict "smoking" 30 ∧
    c4Cand.score = (2 * ((c4Cand.matched_tokens ∩ hppTokenize "smoking").card : ℚ) +
      ((c4Cand.matched_tokens \ hppTokenize "smoking").card : ℚ)) /
      ((expandSynonyms (hppTokenize "smoking")).card : ℚ) ∧
    (search c4Dict "smoking" 30).Pairwise (fun a b => b.score ≤ a.score) := by
  have hmem : c4Cand ∈ search c4Dict "smoking" 30 := by
    show c4Cand ∈ [c4Cand]
    exact List.mem_cons_self _ _
  exact ⟨hmem, (C4_search_score c4Dict "smoking" 30).1 c4Cand hmem,
    (C4_search_score c4Dict "smoking" 30).2⟩

theorem mem_map_fst_forcedStep (rawDict : List (String × List String))
    (qs : List (String × String)) (ds : String) (rel : List (String × ℚ))
    (pr : String × (List (String × String) → Bool))
    (h : ds ∈ rel.map Prod.fst) :
    ds ∈ (forcedStep rawDict qs rel pr).map Prod.fst := by
  unfold forcedStep
  split
  · rw [List.map_append]
    exact List.mem_append_left _ h
  · exact h

theorem mem_map_fst_addForced_aux (rawDict : List (String × List String))
    (qs : List (String × String)) (ds : String) :
    ∀ (rules : List (String × (List (String × String) → Bool)))
      (rel : List (String × ℚ)), ds ∈ rel.map Prod.fst →
      ds ∈ (rules.foldl (forcedStep rawDict qs) rel).map Prod.fst := by
  intro rules
  induction rules with
  | nil => intro rel h; exact h
  | cons pr rest ih =>
      intro rel h
      rw [List.foldl_cons]
      exact ih _ (mem_map_fst_forcedStep rawDict qs ds rel pr h)

theorem mem_map_fst_forcedStep_self (rawDict : List (String × List String))
    (qs : List (String × String)) (rel : List (String × ℚ)) (ds : String)
    (rule : List (String × String) → Bool)
    (hin : dictHas rawDict ds = true) (hfire : rule qs = true) :
    ds ∈ (forcedStep rawDict qs rel (ds, rule)).map Prod.fst := by
  by_cases hmem : rel.any (fun p => p.1 == ds) = true
  · have hds : ds ∈ rel.map Prod.fst := by
      obtain ⟨p, hp, hpe⟩ := List.any_eq_true.1 hmem
      have he : p.1 = ds := eq_of_beq hpe
      exact he ▸ List.mem_map_of_mem Prod.fst hp
    exact mem_map_fst_forcedStep rawDict qs ds rel (ds, rule) hds
  · have hcond : (dictHas rawDict ds && rule qs &&
        !(rel.any (fun p => p.1 == ds))) = true := by
      rw [hin, hfire]
      rw [Bool.not_eq_true] at hmem
      simp [hmem]
    unfold forcedStep
    rw [if_pos hcond, List.map_append]
    exact List.mem_append_right _ (by simp)

/-- C9: a dataset present in the dictionary whose force-include rule
fires on the extracted queries always enters the relevant-dataset map
(with score `1/100` when token search missed it), and it survives into
the rendered context whenever the relevant set fits within
`max_datasets`. Without that bound the final truncation can drop a
forced dataset, since its minimal score sorts last. -/
theorem C9_forced_inclusion (rawDict : List (String × List String)) (edge : JObj)
    (max_datasets : ℕ) (ds : String) (rule : List (String × String) → Bool)
    (hmem : (ds, rule) ∈ _FORCE_INCLUDE_RULES)
    (hin : dictHas rawDict ds = true)
    (hfire : rule (_extract_mapping_queries edge) = true) :
    ds ∈ (relevantDatasets rawDict edge).map Prod.fst ∧
    ((relevantDatasets rawDict edge).length ≤ max_datasets →
      ds ∈ contextDatasets rawDict edge max_datasets) := by
  have hA : ds ∈ (relevantDatasets rawDict edge).map Prod.fst := by
    unfold relevantDatasets addForced
    obtain ⟨s, t, hst⟩ := List.append_of_mem hmem
    rw [hst, List.foldl_append, List.foldl_cons]
    exact mem_map_fst_addForced_aux rawDict _ ds t _
      (mem_map_fst_forcedStep_self rawDict _ _ ds rule hin hfire)
  refine ⟨hA, ?_⟩
  intro hlen
  unfold contextDatasets
  rw [List.take_of_length_le (by rw [length_sortDescBy]; exact hlen)]
  obtain ⟨p, hp, hpe⟩ := List.mem_map.1 hA
  exact hpe ▸ List.mem_map_of_mem Prod.fst
    ((mem_sortDescBy Prod.snd _ p).2 hp)

/-- C9 counterexample: for the two-dataset dictionary and the
smoking-to-cancer edge, the always-true force rule for `000-population`
fires and the dataset is present in the dictionary, and it is indeed
added to the relevant-dataset map with score `1/100`; yet with
`max_datasets = 1` the final truncation keeps only the token-matched
lifestyle dataset, so the forced dataset is omitted from the rendered
context, contradicting the claim that forced datasets are never
omitted from the output. -/
theorem C9_counterexample :
    ("000-population", (fun _ => true : List (String × String) → Bool)) ∈
      _FORCE_INCLUDE_RULES ∧
    dictHas c9Dict "000-population" = true ∧
    "000-population" ∈ (relevantDatasets c9Dict c9Edge).map Prod.fst ∧
    "000-population" ∉ contextDatasets c9Dict c9Edge 1 := by
  have hrel : relevantDatasets c9Dict c9Edge =
      [("055-lifestyle_and_environment", c9Score),
       ("000-population", 1/100)] := rfl
  have h1 : ((expandSynonyms (hppTokenize "smoking") ∩
      pairTokens "055-lifestyle_and_environment" "smoking") ∩
      hppTokenize "smoking").card = 1 := by decide
  have h2 : ((expandSynonyms (hppTokenize "smoking") ∩
      pairTokens "055-lifestyle_and_environment" "smoking") \
      hppTokenize "smoking").card = 0 := by decide
  have h3 : max (expandSynonyms (hppTokenize "smoking")).card 1 = 8 := by decide
  have hs : c9Score = 1/4 := by
    unfold c9Score
    rw [h1, h2, h3]
    norm_num
  have hle : Prod.snd (("000-population", (1:ℚ)/100)) ≤
      Prod.snd (("055-lifestyle_and_environment", c9Score)) := by
    show (1:ℚ)/100 ≤ c9Score
    rw [hs]
    norm_num
  have hctx : contextDatasets c9Dict c9Edge 1 =
      ["055-lifestyle_and_environment"] := by
    unfold contextDatasets
    rw [hrel]
    rw [sortDescBy, sortDescBy, sortDescBy, insertDescBy, insertDescBy]
    rw [if_pos hle]
    rfl
  refine ⟨?_, by decide, ?_, ?_⟩
  · unfold _FORCE_INCLUDE_RULES
    exact List.mem_cons_of_mem _ (List.mem_cons_of_mem _
      (List.mem_cons_of_mem _ (List.mem_cons_self _ _)))
  · rw [hrel]
    simp
  · rw [hctx]
    simp

theorem C9_forced_inclusion_witness :
    "000-population" ∈ (relevantDatasets c9wDict c9wEdge).map Prod.fst ∧
    "000-population" ∈ contextDatasets c9wDict c9wEdge 1 := by
  have hmem : ("000-population",
      (fun _ => true : List (String × String) → Bool)) ∈ _FORCE_INCLUDE_RULES := by
    unfold _FORCE_INCLUDE_RULES
    exact List.mem_cons_of_mem _ (List.mem_cons_of_mem _
      (List.mem_cons_of_mem _ (List.mem_cons_self _ _)))
  have h := C9_forced_inclusion c9wDict c9wEdge 1 "000-population"
    (fun _ => true) hmem (by decide) rfl
  exact ⟨h.1, h.2 (by decide)⟩
